import Mathlib

/-!
# Cache group of `net/http/v4/geecache.go`

A shallow embedding of the cache group (`Group`), its load path and the
process-wide group registry, followed by the properties of the specification
that are settled against it.

Conventions of the embedding.

* A Go `error` value is `Option GoError`; `none` is `nil`.
* A Go result pair `(T, error)` is the pair `T × error`: both components are
  always present, as in Go.
* The collaborators the group calls (the loader, the peer router, the peer
  handle) act on an external world of type `W`; every call to one of them and
  to the local store is also recorded, in call order, in `Env.calls`.
* A `panic` is `Except.error` carrying the panic message.
* `log.Println` / `log.Printf` have no effect on any value and are left out.
* Calls made one at a time are functions on the state (`Group.Get`,
  `NewGroup`, ...); concurrent callers of `Get` are a step function on a
  configuration (`step`, `runSched`), and `one_caller_is_Get` relates the two.
-/

namespace v4

/-- A Go byte slice. -/
abbrev Bytes := List UInt8

/-- A non-nil Go error value, identified by its message. -/
structure GoError where
  msg : String
  deriving DecidableEq, Repr

/-- A Go `error` interface value; `none` is `nil`. -/
abbrev error := Option GoError

/-- Modelled from the spec: the `ByteView` type (declared outside
`geecache.go`), "an immutable, copy-safe wrapper around a byte sequence".
The field name `b` is the one `geecache.go` uses in `ByteView{b: ...}`;
`ByteView{}` is `⟨[]⟩`. -/
structure ByteView where
  b : Bytes
  deriving DecidableEq, Repr

/-- Modelled from the spec: `cloneBytes` (declared outside `geecache.go`),
the "defensive copy" of a byte sequence. A copy of an immutable list is the
list. -/
def cloneBytes (b : Bytes) : Bytes := b

/-- The message `cachepb.Request`, with the two fields `getFromPeer` sets. -/
structure cachepb.Request where
  Group : String
  Key : String
  deriving DecidableEq, Repr

/-- The message `cachepb.Response`, with the field `getFromPeer` reads. -/
structure cachepb.Response where
  Value : Bytes
  deriving DecidableEq, Repr

/-- One call made by the group to a collaborator. -/
inductive Call where
  | cacheGet (key : String)
  | cacheAdd (key : String) (value : ByteView)
  | pickPeer (key : String)
  | peerGet (req : cachepb.Request)
  | getterGet (key : String)
  deriving DecidableEq, Repr

/-- The environment a call runs in: the state of the external collaborators
and the record of the calls made so far (oldest first). -/
structure Env (W : Type) where
  world : W
  calls : List Call

/-- Adds one call to the record. -/
def Env.record {W : Type} (env : Env W) (c : Call) : Env W :=
  { env with calls := env.calls ++ [c] }

/-- The interface `Getter`: `Get(key string) ([]byte, error)`. -/
structure Getter (W : Type) where
  Get : String → W → (Bytes × error) × W

/-- Modelled from the spec: the peer handle interface `PeerGetter` (declared
outside `geecache.go`), "fetch(request{groupName, key}) → (response{value:
bytes}, error)". The response is the content of `*cachepb.Response` after the
call, which `getFromPeer` starts as `&cachepb.Response{}`. -/
structure PeerGetter (W : Type) where
  Get : cachepb.Request → W → (cachepb.Response × error) × W

/-- Modelled from the spec: the peer router interface `PeerPicker` (declared
outside `geecache.go`), "pickPeer(key) → (peerHandle, found: boolean)";
`none` is `found = false`. -/
structure PeerPicker (W : Type) where
  PickPeer : String → W → Option (PeerGetter W) × W

/-- Modelled from the spec: the local store `cache` (declared outside
`geecache.go`), consumed via "get(key) → (ByteView, found: boolean)" and
"add(key, ByteView)", built by `cache{cacheBytes: n}`. Its eviction policy is
not fixed: the store is any type `S` with these three operations. -/
structure cache (S : Type) where
  make : Int → S
  get : S → String → Option ByteView
  add : S → String → ByteView → S

/-- Modelled from the spec: the in-flight call record of the deduplicator,
holding "the shared result (value-or-error) once resolved"; `resolved` is the
completion signal the waiters block on. -/
structure singleflight.call where
  resolved : Bool
  val : ByteView
  err : error
  deriving DecidableEq, Repr

/-- Modelled from the spec: the state of the deduplicator
`singleflight.Group` (declared outside `geecache.go`): the mapping `m` from
key to in-flight record. A record is a pointer, here an index into `calls`,
the records allocated so far: a waiter keeps its record after the record has
left the mapping. -/
structure singleflight.Group where
  m : List (String × Nat)
  calls : List singleflight.call
  deriving DecidableEq, Repr

/-- Modelled from the spec, §4.2 steps 1 to 3: "check whether a record exists
for key"; if so the caller attaches to it (`Sum.inr`), if not "create a new
record, insert it under the same lock" (`Sum.inl`). The waiter count of a
record is read by no step of §4.2 and is left out. -/
def singleflight.Group.enter (sf : singleflight.Group) (key : String) :
    singleflight.Group × (Nat ⊕ Nat) :=
  match sf.m.lookup key with
  | some c => (sf, Sum.inr c)
  | none =>
    ({ m := (key, sf.calls.length) :: sf.m, calls := sf.calls ++ [⟨false, ⟨[]⟩, none⟩] },
      Sum.inl sf.calls.length)

/-- Modelled from the spec, §4.2 step 3: "store the result/error into the
record". -/
def singleflight.Group.store (sf : singleflight.Group) (c : Nat) (r : ByteView × error) :
    singleflight.Group :=
  { sf with calls := sf.calls.set c ⟨false, r.1, r.2⟩ }

/-- Modelled from the spec, §4.2 step 3: "remove the record from the mapping
under the lock". -/
def singleflight.Group.remove (sf : singleflight.Group) (key : String) : singleflight.Group :=
  { sf with m := sf.m.filter (fun e => e.1 != key) }

/-- Modelled from the spec, §4.2 step 3: "then signal all waiters". -/
def singleflight.Group.signal (sf : singleflight.Group) (c : Nat) : singleflight.Group :=
  { sf with calls := sf.calls.modify (fun r => { r with resolved := true }) c }

/-- Modelled from the spec: `singleflight.Group.Do` run by one caller at a
time (§4.2). With no record for `key`: a record is created and inserted, the
computation runs on the caller, its result is stored, the record is removed,
the waiters are signalled and the result is returned. With a record for `key`
the caller blocks until the call in flight resolves; no other caller runs in
a sequential execution, so the call does not return (`none`). -/
def singleflight.Group.Do {σ : Type} (sf : singleflight.Group) (key : String)
    (fn : σ → (ByteView × error) × σ) (s : σ) :
    Option ((ByteView × error) × singleflight.Group × σ) :=
  match sf.enter key with
  | (_, Sum.inr _) => none
  | (sf1, Sum.inl c) =>
    let r := fn s
    some (r.1, (((sf1.store c r.1).remove key).signal c), r.2)

/-- The struct `Group`. The `getter` field is never nil: `NewGroup`, the only
constructor, panics on a nil getter. `picker` is `none` while nil. -/
structure Group (W S : Type) where
  name : String
  getter : Getter W
  mainCache : S
  picker : Option (PeerPicker W)
  singleflight : singleflight.Group

/-- The method `populateCache`. -/
def Group.populateCache {W S : Type} (C : cache S) (g : Group W S) (key : String)
    (value : ByteView) (env : Env W) : Group W S × Env W :=
  ({ g with mainCache := C.add g.mainCache key value }, env.record (Call.cacheAdd key value))

/-- The method `getLocally`. -/
def Group.getLocally {W S : Type} (C : cache S) (g : Group W S) (key : String)
    (env : Env W) : (ByteView × error) × Group W S × Env W :=
  let r := g.getter.Get key env.world
  let env1 : Env W := { world := r.2, calls := env.calls ++ [Call.getterGet key] }
  match r.1.2 with
  | some e => ((⟨[]⟩, some e), g, env1)
  | none =>
    let value : ByteView := ⟨cloneBytes r.1.1⟩
    let p := g.populateCache C key value env1
    ((value, none), p.1, p.2)

/-- The method `getFromPeer`. -/
def Group.getFromPeer {W S : Type} (g : Group W S) (peer : PeerGetter W) (key : String)
    (env : Env W) : (ByteView × error) × Env W :=
  let req : cachepb.Request := { Group := g.name, Key := key }
  let r := peer.Get req env.world
  let env1 : Env W := { world := r.2, calls := env.calls ++ [Call.peerGet req] }
  match r.1.2 with
  | some e => ((⟨[]⟩, some e), env1)
  | none => ((⟨cloneBytes r.1.1.Value⟩, none), env1)

/-- The state the closure of `load` works on: the group, the environment, and
the named results `value` and `err` of `load`, which the closure captures. -/
structure LoadFrame (W S : Type) where
  g : Group W S
  env : Env W
  value : ByteView
  err : error

/-- The last statement of the closure of `load`: `return g.getLocally(key)`. -/
def LoadFrame.getLocally {W S : Type} (C : cache S) (key : String) (f : LoadFrame W S) :
    (ByteView × error) × LoadFrame W S :=
  let r := f.g.getLocally C key f.env
  (r.1, { f with g := r.2.1, env := r.2.2 })

/-- The closure `load` passes to `singleflight.Do`. The assignment
`value, err = g.getFromPeer(peer, key)` writes the named results of `load`. -/
def Group.loadFn {W S : Type} (C : cache S) (key : String) (f : LoadFrame W S) :
    (ByteView × error) × LoadFrame W S :=
  match f.g.picker with
  | none => f.getLocally C key
  | some picker =>
    let pk := picker.PickPeer key f.env.world
    let env1 : Env W := { world := pk.2, calls := f.env.calls ++ [Call.pickPeer key] }
    match pk.1 with
    | none => LoadFrame.getLocally C key { f with env := env1 }
    | some peer =>
      let r := f.g.getFromPeer peer key env1
      let f1 : LoadFrame W S := { f with env := r.2, value := r.1.1, err := r.1.2 }
      match r.1.2 with
      | none => ((r.1.1, none), f1)
      | some _ => f1.getLocally C key

/-- The statements of `load` after `singleflight.Do` has returned `(view, err)`:
`if err == nil { return view.(ByteView), nil }; return`, the bare return
giving the named results `value` and `err`. -/
def Group.loadReturn (view : ByteView × error) (value : ByteView) : ByteView × error :=
  match view.2 with
  | none => (view.1, none)
  | some e => (value, some e)

/-- The method `load`. -/
def Group.load {W S : Type} (C : cache S) (g : Group W S) (key : String) (env : Env W) :
    Option ((ByteView × error) × Group W S × Env W) :=
  match g.singleflight.Do key (Group.loadFn C key) ⟨g, env, ⟨[]⟩, none⟩ with
  | none => none
  | some (view, sf, f) =>
    some (Group.loadReturn view f.value, { f.g with singleflight := sf }, f.env)

/-- The method `Get`. -/
def Group.Get {W S : Type} (C : cache S) (g : Group W S) (key : String) (env : Env W) :
    Option ((ByteView × error) × Group W S × Env W) :=
  if key = "" then
    some ((⟨[]⟩, some ⟨"key is required"⟩), g, env)
  else
    match C.get g.mainCache key with
    | some v => some ((v, none), g, env.record (Call.cacheGet key))
    | none => g.load C key (env.record (Call.cacheGet key))

/-- The method `RegistePeers`; the argument is nil when `none`. The result is
the panic, if any, and the group after the call. -/
def Group.RegistePeers {W S : Type} (g : Group W S) (picker : Option (PeerPicker W)) :
    Except String Unit × Group W S :=
  match g.picker with
  | some _ => (Except.error "RegistePeers called more than once", g)
  | none => (Except.ok (), { g with picker := picker })

/-- The number of loader invocations in a record of calls. -/
def loaderCalls (cs : List Call) : Nat :=
  cs.countP (fun c => match c with | Call.getterGet _ => true | _ => false)

/-- The world in which the closure of `load` invokes the loader, when the load
started in world `w` reaches the loader: no router attached, no peer picked
for `k`, or the picked peer's fetch failed. `none` when a peer's fetch
succeeds, the one case in which the loader is not reached. -/
def Group.loaderWorld {W S : Type} (g : Group W S) (k : String) (w : W) : Option W :=
  match g.picker with
  | none => some w
  | some p =>
    match (p.PickPeer k w).1 with
    | none => some (p.PickPeer k w).2
    | some peer =>
      match (peer.Get ⟨g.name, k⟩ (p.PickPeer k w).2).1.2 with
      | some _ => some (peer.Get ⟨g.name, k⟩ (p.PickPeer k w).2).2
      | none => none

/-- What a caller of `Get` receives for a loader invocation that returned
`out`: the `ByteView` of the bytes with a nil error, or the empty `ByteView`
with the loader's error. -/
def viewOf (out : Bytes × error) : ByteView × error :=
  match out.2 with
  | none => (⟨cloneBytes out.1⟩, none)
  | some e => (⟨[]⟩, some e)

/-- The deduplicator after a `Do` for `key` that created the record, ran the
computation with result `r` and cleaned up. -/
def singleflight.Group.finished (sf : singleflight.Group) (key : String)
    (r : ByteView × error) : singleflight.Group :=
  ((((sf.enter key).1.store sf.calls.length r).remove key).signal sf.calls.length)

/-! ## The group registry -/

/-- The package-level state: the registry `groups` (a map from name to
`*Group`, latest binding first) and the `Group` objects allocated so far. A
`*Group` is an index into `heap`; an index outside it is a nil pointer. The
lock `mu` holds no state between calls. -/
structure Process (W S : Type) where
  groups : List (String × Nat)
  heap : List (Group W S)

/-- The function `NewGroup`; the getter is nil when `none`. The result is the
panic or the new `*Group`, and the package state after the call. -/
def NewGroup {W S : Type} (C : cache S) (name : String) (cacheBytes : Int)
    (getter : Option (Getter W)) (P : Process W S) : Except String Nat × Process W S :=
  match getter with
  | none => (Except.error "getter is nil", P)
  | some gt =>
    match P.groups.lookup name with
    | some _ => (Except.error ("group " ++ name ++ " exists"), P)
    | none =>
      let g : Group W S :=
        { name := name, getter := gt, mainCache := C.make cacheBytes, picker := none,
          singleflight := ⟨[], []⟩ }
      (Except.ok P.heap.length,
        { groups := (name, P.heap.length) :: P.groups, heap := P.heap ++ [g] })

/-- The function `GetGroup`: the `*Group` registered under `name`, nil (`none`)
when there is none, and the package state after the call. -/
def GetGroup {W S : Type} (name : String) (P : Process W S) : Option Nat × Process W S :=
  (P.groups.lookup name, P)

/-- One call of the exposed surface, on the package state. -/
inductive Op (W : Type) where
  | NewGroup (name : String) (cacheBytes : Int) (getter : Option (Getter W))
  | GetGroup (name : String)
  | RegistePeers (g : Nat) (picker : Option (PeerPicker W))
  | Get (g : Nat) (key : String)

/-- The whole state a sequence of calls works on. -/
structure Machine (W S : Type) where
  proc : Process W S
  env : Env W

/-- The state after one call. A method call through a nil `*Group` panics
before it writes anything, and so does a `NewGroup` or `RegistePeers` that
panics. A `Get` that would wait on a record in flight, which no completed
call leaves behind, is skipped. -/
def exec {W S : Type} (C : cache S) (M : Machine W S) : Op W → Machine W S
  | Op.NewGroup name cacheBytes getter =>
    { M with proc := (NewGroup C name cacheBytes getter M.proc).2 }
  | Op.GetGroup name => { M with proc := (GetGroup name M.proc).2 }
  | Op.RegistePeers ptr picker =>
    match M.proc.heap[ptr]? with
    | none => M
    | some g =>
      { M with proc := { M.proc with heap := M.proc.heap.set ptr (g.RegistePeers picker).2 } }
  | Op.Get ptr key =>
    match M.proc.heap[ptr]? with
    | none => M
    | some g =>
      match g.Get C key M.env with
      | none => M
      | some r => { proc := { M.proc with heap := M.proc.heap.set ptr r.2.1 }, env := r.2.2 }

/-- The state after a sequence of calls. -/
def run {W S : Type} (C : cache S) (M : Machine W S) (ops : List (Op W)) : Machine W S :=
  ops.foldl (exec C) M

/-- The state of a process that has made no call yet: the empty registry. -/
def Machine.init {W S : Type} (env : Env W) : Machine W S :=
  { proc := { groups := [], heap := [] }, env := env }

/-! ## Concurrent callers of `Get`

`n` callers run `Get(k)` on one group. A caller advances by atomic steps, one
per access to shared state, in the order of the statements of `Get`, `load`
and (modelled from the spec, §4.2) `singleflight.Do`; an interleaving is the
list of the callers in the order in which they take their steps. The closure
of `load` is one step: while it runs no other caller writes the state it
reads, and a store lookup that would fall between the loader's return and
`populateCache` sees what it sees just before the closure. -/

/-- Where a caller of `Get(k)` stands. -/
inductive Pc where
  /-- Has not run a statement of `Get` yet. -/
  | start
  /-- The store lookup missed; about to call `load`, hence `Do`. -/
  | missed
  /-- Inside `Do`: created the record `c`; about to run the closure. -/
  | leading (c : Nat)
  /-- Inside `Do`: the closure returned `view`, leaving the named result
  `value` of `load`; about to store the result into the record `c`. -/
  | computed (c : Nat) (view : ByteView × error) (value : ByteView)
  /-- Inside `Do`: the result is in the record; about to remove the record. -/
  | stored (c : Nat) (view : ByteView × error) (value : ByteView)
  /-- Inside `Do`: the record is out of the mapping; about to signal the
  waiters and return. -/
  | removed (c : Nat) (view : ByteView × error) (value : ByteView)
  /-- Inside `Do`: attached to the record `c` of another caller, blocked until
  that record is signalled. -/
  | waiting (c : Nat)
  /-- The call `Get(k)` has returned `r`. -/
  | returned (r : ByteView × error)
  deriving DecidableEq, Repr

/-- The caller is inside `Do` and the record it leads or waits on has not
left the mapping through it: the call overlaps the load in flight. -/
def Pc.inFlight : Pc → Bool
  | Pc.leading _ => true
  | Pc.computed _ _ _ => true
  | Pc.stored _ _ _ => true
  | Pc.waiting _ => true
  | _ => false

/-- The call has returned. -/
def Pc.isReturned : Pc → Bool
  | Pc.returned _ => true
  | _ => false

/-- The group, the environment, and where each of the `n` callers stands. -/
structure Cfg (W S : Type) (n : Nat) where
  g : Group W S
  env : Env W
  pcs : Fin n → Pc

/-- All callers about to call `Get`. -/
def Cfg.init {W S : Type} (n : Nat) (g : Group W S) (env : Env W) : Cfg W S n :=
  { g := g, env := env, pcs := fun _ => Pc.start }

/-- Caller `i` moves to `p`. -/
def Cfg.setPc {W S : Type} {n : Nat} (cfg : Cfg W S n) (i : Fin n) (p : Pc) : Cfg W S n :=
  { cfg with pcs := Function.update cfg.pcs i p }

/-- The deduplicator of the group becomes `sf`. -/
def Cfg.setSf {W S : Type} {n : Nat} (cfg : Cfg W S n) (sf : singleflight.Group) :
    Cfg W S n :=
  { cfg with g := { cfg.g with singleflight := sf } }

/-- The next atomic step of caller `i` of `Get(k)`. A caller that is blocked
or has returned does nothing. -/
def step {W S : Type} {n : Nat} (C : cache S) (k : String) (cfg : Cfg W S n) (i : Fin n) :
    Cfg W S n :=
  match cfg.pcs i with
  | Pc.start =>
    if k = "" then
      cfg.setPc i (Pc.returned (⟨[]⟩, some ⟨"key is required"⟩))
    else
      match C.get cfg.g.mainCache k with
      | some v =>
        Cfg.setPc { cfg with env := cfg.env.record (Call.cacheGet k) } i (Pc.returned (v, none))
      | none =>
        Cfg.setPc { cfg with env := cfg.env.record (Call.cacheGet k) } i Pc.missed
  | Pc.missed =>
    match cfg.g.singleflight.enter k with
    | (sf, Sum.inl c) => (cfg.setSf sf).setPc i (Pc.leading c)
    | (sf, Sum.inr c) => (cfg.setSf sf).setPc i (Pc.waiting c)
  | Pc.leading c =>
    let r := Group.loadFn C k ⟨cfg.g, cfg.env, ⟨[]⟩, none⟩
    Cfg.setPc { cfg with g := r.2.g, env := r.2.env } i (Pc.computed c r.1 r.2.value)
  | Pc.computed c view value =>
    (cfg.setSf (cfg.g.singleflight.store c view)).setPc i (Pc.stored c view value)
  | Pc.stored c view value =>
    (cfg.setSf (cfg.g.singleflight.remove k)).setPc i (Pc.removed c view value)
  | Pc.removed c view value =>
    (cfg.setSf (cfg.g.singleflight.signal c)).setPc i
      (Pc.returned (Group.loadReturn view value))
  | Pc.waiting c =>
    match cfg.g.singleflight.calls[c]? with
    | some r =>
      if r.resolved then cfg.setPc i (Pc.returned (Group.loadReturn (r.val, r.err) ⟨[]⟩))
      else cfg
    | none => cfg
  | Pc.returned _ => cfg

/-- The configuration after the interleaving `sched`. -/
def runSched {W S : Type} {n : Nat} (C : cache S) (k : String) (cfg : Cfg W S n)
    (sched : List (Fin n)) : Cfg W S n :=
  sched.foldl (step C k) cfg

/-- The caller has taken its record out of the mapping, or has returned. -/
def Pc.left : Pc → Bool
  | Pc.removed _ _ _ => true
  | Pc.returned _ => true
  | _ => false

/-- What the deduplicator `sf` and the number `count` of loader invocations
are while the caller that created the record `c` stands at the given place,
in a group with no router, `base` being the number of loader invocations
before the callers started. -/
def LeaderOK (k : String) (base c : Nat) (sf : singleflight.Group) (count : Nat) : Pc → Prop
  | Pc.leading c1 =>
    c1 = c ∧ sf.m.lookup k = some c ∧ (∃ r, sf.calls[c]? = some r ∧ r.resolved = false) ∧
      count = base
  | Pc.computed c1 _ value =>
    c1 = c ∧ value = ⟨[]⟩ ∧ sf.m.lookup k = some c ∧
      (∃ r, sf.calls[c]? = some r ∧ r.resolved = false) ∧ count = base + 1
  | Pc.stored c1 view value =>
    c1 = c ∧ value = ⟨[]⟩ ∧ sf.m.lookup k = some c ∧
      sf.calls[c]? = some ⟨false, view.1, view.2⟩ ∧ count = base + 1
  | Pc.removed c1 view value =>
    c1 = c ∧ value = ⟨[]⟩ ∧ sf.calls[c]? = some ⟨false, view.1, view.2⟩ ∧ count = base + 1
  | Pc.returned r =>
    ∃ view, r = Group.loadReturn view ⟨[]⟩ ∧ sf.calls[c]? = some ⟨true, view.1, view.2⟩ ∧
      count = base + 1
  | _ => False

/-- A caller other than the leader of `c`, once every caller is inside `Do`:
it waits on `c`, or it has returned what the signalled record `c` holds. -/
def FollowerOK (c : Nat) (sf : singleflight.Group) : Pc → Prop
  | Pc.waiting c1 => c1 = c
  | Pc.returned r =>
    ∃ view, r = Group.loadReturn view ⟨[]⟩ ∧ sf.calls[c]? = some ⟨true, view.1, view.2⟩
  | _ => False

/-- A caller other than the leader of `c`, while callers are still entering
`Do`: it has not entered yet, or it waits on `c`. -/
def EntrantOK (c : Nat) : Pc → Prop
  | Pc.start => True
  | Pc.missed => True
  | Pc.waiting c1 => c1 = c
  | _ => False

/-- The invariant while no caller has left: no record and every caller before
`Do`, or one leader with the record in the mapping and the others before `Do`
or waiting on that record. -/
def Entering {W S : Type} {n : Nat} (k : String) (base : Nat) (cfg : Cfg W S n) : Prop :=
  cfg.g.picker = none ∧
  ((cfg.g.singleflight.m.lookup k = none ∧ loaderCalls cfg.env.calls = base ∧
      ∀ j, cfg.pcs j = Pc.start ∨ cfg.pcs j = Pc.missed) ∨
    ∃ c L, LeaderOK k base c cfg.g.singleflight (loaderCalls cfg.env.calls) (cfg.pcs L) ∧
      ∀ j, j ≠ L → EntrantOK c (cfg.pcs j))

/-- The invariant from the moment every caller is inside `Do` on the record
`c` led by `L`: the leader is where `LeaderOK` says, the others wait on `c` or
have returned its result. -/
def OverlapAt {W S : Type} {n : Nat} (k : String) (base c : Nat) (L : Fin n)
    (cfg : Cfg W S n) : Prop :=
  cfg.g.picker = none ∧
  LeaderOK k base c cfg.g.singleflight (loaderCalls cfg.env.calls) (cfg.pcs L) ∧
  ∀ j, j ≠ L → FollowerOK c cfg.g.singleflight (cfg.pcs j)

/-- Some caller leads a record on which all the calls overlap. -/
def Overlap {W S : Type} {n : Nat} (k : String) (base : Nat) (cfg : Cfg W S n) : Prop :=
  ∃ c L, OverlapAt k base c L cfg

/-- How far the leader is: the number of its steps inside `Do` so far. -/
def Pc.rank : Pc → Nat
  | Pc.computed _ _ _ => 1
  | Pc.stored _ _ _ => 2
  | Pc.removed _ _ _ => 3
  | Pc.returned _ => 4
  | _ => 0

/-! ## Concrete collaborators

A store, loaders and peers to evaluate the definitions on. The world is a
counter of the invocations of the data source. -/

/-- An unbounded store: an association list, latest entry first. -/
def listCache : cache (List (String × ByteView)) where
  make := fun _ => []
  get := fun s k => s.lookup k
  add := fun s k v => (k, v) :: s

/-- A loader that returns the bytes `v` for every key. -/
def constGetter (v : Bytes) : Getter Nat where
  Get := fun _ w => ((v, none), w + 1)

/-- A loader that fails for every key. -/
def failGetter (msg : String) : Getter Nat where
  Get := fun _ w => (([], some ⟨msg⟩), w + 1)

/-- A loader whose answer is the number of invocations before this one. -/
def countGetter : Getter Nat where
  Get := fun _ w => (([UInt8.ofNat w], none), w + 1)

/-- A loader that fails on its first invocation and returns `v` afterwards. -/
def flakyGetter (v : Bytes) : Getter Nat where
  Get := fun _ w => if w = 0 then (([], some ⟨"data source down"⟩), w + 1) else ((v, none), w + 1)

/-- A peer whose fetch returns the bytes `b`. -/
def okPeer (b : Bytes) : PeerGetter Nat where
  Get := fun _ w => ((⟨b⟩, none), w)

/-- A peer whose fetch fails. -/
def downPeer (msg : String) : PeerGetter Nat where
  Get := fun _ w => ((⟨[]⟩, some ⟨msg⟩), w)

/-- A router that picks `peer` for every key. -/
def fixedPicker (peer : PeerGetter Nat) : PeerPicker Nat where
  PickPeer := fun _ w => (some peer, w)

/-- A router that picks no peer. -/
def selfPicker : PeerPicker Nat where
  PickPeer := fun _ w => (none, w)

/-- A group named "scores" with an empty store and nothing in flight. -/
def coldGroup (getter : Getter Nat) (picker : Option (PeerPicker Nat)) :
    Group Nat (List (String × ByteView)) :=
  { name := "scores", getter := getter, mainCache := [], picker := picker,
    singleflight := ⟨[], []⟩ }

/-- An environment in which no call has been made. -/
def env0 : Env Nat := { world := 0, calls := [] }

/-- The run of two callers, one after the other, on a cold group with no
router whose loader fails. -/
def serialFailingRun : Cfg Nat (List (String × ByteView)) 2 :=
  runSched listCache "Tom" (Cfg.init 2 (coldGroup (failGetter "no such key") none) env0)
    [0, 0, 0, 0, 0, 0, 1, 1, 1, 1, 1, 1]

/-- The run of two callers on a cold group with no router whose loader
succeeds: caller 1 misses the store, caller 0 runs its whole call, caller 1
goes on. -/
def lateEntryRun : Cfg Nat (List (String × ByteView)) 2 :=
  runSched listCache "Tom" (Cfg.init 2 (coldGroup countGetter none) env0)
    [1, 0, 0, 0, 0, 0, 0, 1, 1, 1, 1, 1]

/-- The run of three callers that are all inside `Do` before the leader, caller
1, runs the closure. -/
def overlappingRun : Cfg Nat (List (String × ByteView)) 3 :=
  runSched listCache "Tom" (Cfg.init 3 (coldGroup countGetter none) env0)
    ([1, 0, 2, 1, 0, 2] ++ [1, 0, 1, 1, 2, 1, 0, 2])

/-! ## The load path, one caller at a time -/

theorem lookup_filter_self (m : List (String × Nat)) (key : String) :
    (m.filter (fun e => e.1 != key)).lookup key = none := by
  induction m with
  | nil => rfl
  | cons e m ih =>
    by_cases h : e.1 = key
    · simp [List.filter_cons, h, ih]
    · have h2 : (key == e.1) = false := by
        simp only [beq_eq_false_iff_ne, ne_eq]
        exact fun h3 => h h3.symm
      have h4 : (e.1 != key) = true := by simp [bne, h]
      rw [List.filter_cons, if_pos h4]
      obtain ⟨a, b⟩ := e
      simp only [List.lookup] at *
      simp only [h2, ih]

theorem finished_lookup (sf : singleflight.Group) (key : String) (r : ByteView × error) :
    (sf.finished key r).m.lookup key = none := by
  simp [singleflight.Group.finished, singleflight.Group.signal, singleflight.Group.remove,
    singleflight.Group.store, lookup_filter_self]

/-- With no record in flight for `key`, `load` runs the closure once and
returns what `loadReturn` makes of its result; no record for `key` is left. -/
theorem load_quiet {W S : Type} (C : cache S) (g : Group W S) (key : String) (env : Env W)
    (hq : g.singleflight.m.lookup key = none) :
    Group.load C g key env =
        some (Group.loadReturn (Group.loadFn C key ⟨g, env, ⟨[]⟩, none⟩).1
                (Group.loadFn C key ⟨g, env, ⟨[]⟩, none⟩).2.value,
              { (Group.loadFn C key ⟨g, env, ⟨[]⟩, none⟩).2.g with
                singleflight := g.singleflight.finished key
                  (Group.loadFn C key ⟨g, env, ⟨[]⟩, none⟩).1 },
              (Group.loadFn C key ⟨g, env, ⟨[]⟩, none⟩).2.env) := by
  simp only [Group.load, singleflight.Group.Do, singleflight.Group.enter, hq,
    singleflight.Group.finished]

/-- The closure on a frame whose group reaches the loader in world `wl`: the
loader is invoked once, in `wl`; on success the store gets the value. -/
theorem loadFn_loader {W S : Type} (C : cache S) (g : Group W S) (k : String) (env : Env W)
    (wl : W) (hreach : g.loaderWorld k env.world = some wl) :
    (Group.loadFn C k ⟨g, env, ⟨[]⟩, none⟩).1 = viewOf (g.getter.Get k wl).1 ∧
    (Group.loadFn C k ⟨g, env, ⟨[]⟩, none⟩).2.value = ⟨[]⟩ ∧
    (Group.loadFn C k ⟨g, env, ⟨[]⟩, none⟩).2.env.world = (g.getter.Get k wl).2 ∧
    loaderCalls (Group.loadFn C k ⟨g, env, ⟨[]⟩, none⟩).2.env.calls
      = loaderCalls env.calls + 1 ∧
    (Group.loadFn C k ⟨g, env, ⟨[]⟩, none⟩).2.g.name = g.name ∧
    (Group.loadFn C k ⟨g, env, ⟨[]⟩, none⟩).2.g.getter = g.getter ∧
    (Group.loadFn C k ⟨g, env, ⟨[]⟩, none⟩).2.g.picker = g.picker ∧
    (Group.loadFn C k ⟨g, env, ⟨[]⟩, none⟩).2.g.mainCache =
      (match (g.getter.Get k wl).1.2 with
       | none => C.add g.mainCache k ⟨cloneBytes (g.getter.Get k wl).1.1⟩
       | some _ => g.mainCache) := by
  have hloc : ∀ (env1 : Env W) (v0 : ByteView) (e0 : error), env1.world = wl →
      loaderCalls env1.calls = loaderCalls env.calls →
      (LoadFrame.getLocally C k ⟨g, env1, v0, e0⟩).1 = viewOf (g.getter.Get k wl).1 ∧
      (LoadFrame.getLocally C k ⟨g, env1, v0, e0⟩).2.value = v0 ∧
      (LoadFrame.getLocally C k ⟨g, env1, v0, e0⟩).2.env.world = (g.getter.Get k wl).2 ∧
      loaderCalls (LoadFrame.getLocally C k ⟨g, env1, v0, e0⟩).2.env.calls
        = loaderCalls env.calls + 1 ∧
      (LoadFrame.getLocally C k ⟨g, env1, v0, e0⟩).2.g.name = g.name ∧
      (LoadFrame.getLocally C k ⟨g, env1, v0, e0⟩).2.g.getter = g.getter ∧
      (LoadFrame.getLocally C k ⟨g, env1, v0, e0⟩).2.g.picker = g.picker ∧
      (LoadFrame.getLocally C k ⟨g, env1, v0, e0⟩).2.g.mainCache =
        (match (g.getter.Get k wl).1.2 with
         | none => C.add g.mainCache k ⟨cloneBytes (g.getter.Get k wl).1.1⟩
         | some _ => g.mainCache) := by
    intro env1 v0 e0 hw hc
    simp only [LoadFrame.getLocally, Group.getLocally, hw, viewOf, Group.populateCache,
      Env.record]
    cases hE : (g.getter.Get k wl).1.2 <;>
      simp [loaderCalls, List.countP_append, hc] <;> simp [loaderCalls] at hc <;> omega
  unfold Group.loaderWorld at hreach
  unfold Group.loadFn
  cases hp : g.picker with
  | none =>
    simp only [hp, Option.some.injEq] at hreach
    have h := hloc env ⟨[]⟩ none hreach rfl
    simpa only [hp] using h
  | some p =>
    simp only [hp] at hreach
    simp only []
    cases hpk : (p.PickPeer k env.world).1 with
    | none =>
      simp only [hpk, Option.some.injEq] at hreach
      have h := hloc ⟨(p.PickPeer k env.world).2, env.calls ++ [Call.pickPeer k]⟩ ⟨[]⟩ none
        hreach (by simp [loaderCalls, List.countP_append])
      simpa only [hp] using h
    | some peer =>
      simp only [hpk] at hreach
      simp only []
      cases hf : (peer.Get ⟨g.name, k⟩ (p.PickPeer k env.world).2).1.2 with
      | none => simp [hf] at hreach
      | some e =>
        simp only [hf, Option.some.injEq] at hreach
        have h := hloc ⟨(peer.Get ⟨g.name, k⟩ (p.PickPeer k env.world).2).2,
          (env.calls ++ [Call.pickPeer k]) ++ [Call.peerGet ⟨g.name, k⟩]⟩ ⟨[]⟩ (some e)
          hreach (by simp [loaderCalls, List.countP_append])
        simpa only [hp, Group.getFromPeer, hf] using h

theorem loadReturn_viewOf (out : Bytes × error) :
    Group.loadReturn (viewOf out) ⟨[]⟩ = viewOf out := by
  unfold Group.loadReturn viewOf
  cases out.2 <;> rfl

/-- A load that reaches the loader, with no record in flight for `k`: the
result is the loader's, the loader is invoked once, and no record is left.
The store gets the value exactly when the loader succeeds. -/
theorem load_loader {W S : Type} (C : cache S) (g : Group W S) (k : String) (env : Env W)
    (wl : W) (hq : g.singleflight.m.lookup k = none)
    (hreach : g.loaderWorld k env.world = some wl) :
    ∃ g1 env1, Group.load C g k env = some (viewOf (g.getter.Get k wl).1, g1, env1) ∧
      g1.name = g.name ∧ g1.getter = g.getter ∧ g1.picker = g.picker ∧
      g1.mainCache = (match (g.getter.Get k wl).1.2 with
        | none => C.add g.mainCache k ⟨cloneBytes (g.getter.Get k wl).1.1⟩
        | some _ => g.mainCache) ∧
      g1.singleflight.m.lookup k = none ∧
      env1.world = (g.getter.Get k wl).2 ∧
      loaderCalls env1.calls = loaderCalls env.calls + 1 := by
  obtain ⟨h1, h2, h3, h4, h5, h6, h7, h8⟩ := loadFn_loader C g k env wl hreach
  have hl := load_quiet C g k env hq
  rw [h1, h2, loadReturn_viewOf] at hl
  exact ⟨_, _, hl, h5, h6, h7, h8, finished_lookup _ _ _, h3, h4⟩

/-- When no peer is picked for `k`, the load reaches the loader. -/
theorem loaderWorld_nopeer {W S : Type} (g : Group W S) (k : String) (w : W)
    (hnopeer : ∀ p, g.picker = some p → (p.PickPeer k w).1 = none) :
    ∃ wl, g.loaderWorld k w = some wl := by
  unfold Group.loaderWorld
  cases hp : g.picker with
  | none => exact ⟨w, rfl⟩
  | some p => exact ⟨(p.PickPeer k w).2, by simp only [hnopeer p hp]⟩

/-- The same for `Get` of a non-empty key that the store does not hold. -/
theorem Get_loader {W S : Type} (C : cache S) (g : Group W S) (k : String) (env : Env W)
    (wl : W) (hk : k ≠ "") (habs : C.get g.mainCache k = none)
    (hq : g.singleflight.m.lookup k = none)
    (hreach : g.loaderWorld k env.world = some wl) :
    ∃ g1 env1, Group.Get C g k env = some (viewOf (g.getter.Get k wl).1, g1, env1) ∧
      g1.name = g.name ∧ g1.getter = g.getter ∧ g1.picker = g.picker ∧
      g1.mainCache = (match (g.getter.Get k wl).1.2 with
        | none => C.add g.mainCache k ⟨cloneBytes (g.getter.Get k wl).1.1⟩
        | some _ => g.mainCache) ∧
      g1.singleflight.m.lookup k = none ∧
      env1.world = (g.getter.Get k wl).2 ∧
      loaderCalls env1.calls = loaderCalls env.calls + 1 := by
  obtain ⟨g1, env1, h1, h2⟩ := load_loader C g k (env.record (Call.cacheGet k)) wl hq hreach
  refine ⟨g1, env1, ?_, ?_⟩
  · simp only [Group.Get, hk, if_false, habs, h1]
  · simpa [Env.record, loaderCalls, List.countP_append] using h2

/-! ## Properties of `Get`, `load`, `RegistePeers` and the registry -/

/-- C4: for every group in every state, `Get("")` returns a non-nil error
together with the empty `ByteView`; the group (its local store included), the
world of the collaborators and the record of calls are what they were, so the
store was not looked up, no peer was picked or fetched from, and the loader
was not invoked. -/
theorem C4_empty_key {W S : Type} (C : cache S) (g : Group W S) (env : Env W) :
    ∃ e : GoError, Group.Get C g "" env = some ((⟨[]⟩, some e), g, env) :=
  ⟨⟨"key is required"⟩, by simp [Group.Get]⟩

/-- C1: a group in which no peer is picked for the non-empty key `k`, `k`
absent from the local store, no load for `k` in flight, a loader returning
`v` for `k` with a nil error, and a store that keeps the value added: the
first `Get(k)` returns the `ByteView` of `v` with a nil error, the second
`Get(k)` returns the same, and the loader is invoked once in the first call
and not at all in the second. -/
theorem C1_second_get_hits {W S : Type} (C : cache S) (g : Group W S) (k : String)
    (env : Env W) (v : Bytes)
    (hk : k ≠ "") (habs : C.get g.mainCache k = none)
    (hq : g.singleflight.m.lookup k = none)
    (hnopeer : ∀ p, g.picker = some p → (p.PickPeer k env.world).1 = none)
    (hloader : ∀ w, (g.getter.Get k w).1 = (v, none))
    (hkeep : C.get (C.add g.mainCache k ⟨cloneBytes v⟩) k = some ⟨cloneBytes v⟩) :
    ∃ g1 env1 g2 env2,
      Group.Get C g k env = some ((⟨cloneBytes v⟩, none), g1, env1) ∧
      Group.Get C g1 k env1 = some ((⟨cloneBytes v⟩, none), g2, env2) ∧
      loaderCalls env1.calls = loaderCalls env.calls + 1 ∧
      loaderCalls env2.calls = loaderCalls env1.calls := by
  obtain ⟨wl, hwl⟩ := loaderWorld_nopeer g k env.world hnopeer
  obtain ⟨g1, env1, h1, -, -, -, h5, -, -, h8⟩ := Get_loader C g k env wl hk habs hq hwl
  rw [hloader wl] at h1 h5
  simp only [viewOf] at h1 h5
  refine ⟨g1, env1, g1, env1.record (Call.cacheGet k), h1, ?_, h8, ?_⟩
  · simp only [Group.Get, hk, if_false, h5, hkeep]
  · simp [Env.record, loaderCalls, List.countP_append]

theorem C1_second_get_hits_witness :
    ∃ g1 env1 g2 env2,
      Group.Get listCache (coldGroup (constGetter [7, 9]) (some selfPicker)) "Tom" env0
        = some ((⟨cloneBytes [7, 9]⟩, none), g1, env1) ∧
      Group.Get listCache g1 "Tom" env1 = some ((⟨cloneBytes [7, 9]⟩, none), g2, env2) ∧
      loaderCalls env1.calls = loaderCalls env0.calls + 1 ∧
      loaderCalls env2.calls = loaderCalls env1.calls :=
  C1_second_get_hits listCache (coldGroup (constGetter [7, 9]) (some selfPicker)) "Tom" env0
    [7, 9] (by decide) rfl rfl
    (fun p hp => by
      have h : p = selfPicker := by
        simp only [coldGroup, Option.some.injEq] at hp
        exact hp.symm
      subst h
      rfl)
    (fun _ => rfl) rfl

/-- C2: a group with the router `p` attached, a non-empty key `k` absent from
the local store, no load for `k` in flight: if `PickPeer(k)` returns `peer`
and the fetch of `peer` for the request (group name, `k`) returns the bytes
`b` with a nil error, then `Get(k)` returns the `ByteView` of `b` with a nil
error, the calls made are the store lookup, `PickPeer` and the fetch (so the
loader is not invoked and nothing is added to the store), and the local store
is the one before the call. -/
theorem C2_peer_hit {W S : Type} (C : cache S) (g : Group W S) (k : String) (env : Env W)
    (p : PeerPicker W) (peer : PeerGetter W) (b : Bytes)
    (hk : k ≠ "") (habs : C.get g.mainCache k = none)
    (hq : g.singleflight.m.lookup k = none)
    (hp : g.picker = some p)
    (hpick : (p.PickPeer k env.world).1 = some peer)
    (hfetch : (peer.Get ⟨g.name, k⟩ (p.PickPeer k env.world).2).1 = (⟨b⟩, none)) :
    ∃ g1 env1,
      Group.Get C g k env = some ((⟨cloneBytes b⟩, none), g1, env1) ∧
      g1.mainCache = g.mainCache ∧
      env1.calls = env.calls ++
        [Call.cacheGet k, Call.pickPeer k, Call.peerGet ⟨g.name, k⟩] ∧
      loaderCalls env1.calls = loaderCalls env.calls := by
  have hl := load_quiet C g k (env.record (Call.cacheGet k)) hq
  have hfn : Group.loadFn C k ⟨g, env.record (Call.cacheGet k), ⟨[]⟩, none⟩ =
      ((⟨cloneBytes b⟩, none),
        ⟨g, ⟨(peer.Get ⟨g.name, k⟩ (p.PickPeer k env.world).2).2,
          env.calls ++ [Call.cacheGet k] ++ [Call.pickPeer k] ++ [Call.peerGet ⟨g.name, k⟩]⟩,
          ⟨cloneBytes b⟩, none⟩) := by
    simp only [Group.loadFn, hp, Env.record, hpick, Group.getFromPeer, hfetch]
  rw [hfn] at hl
  have hG : Group.Get C g k env = some ((⟨cloneBytes b⟩, none),
      { g with singleflight := g.singleflight.finished k (⟨cloneBytes b⟩, none) },
      ⟨(peer.Get ⟨g.name, k⟩ (p.PickPeer k env.world).2).2,
        env.calls ++ [Call.cacheGet k] ++ [Call.pickPeer k] ++ [Call.peerGet ⟨g.name, k⟩]⟩) := by
    simp only [Group.Get, hk, if_false, habs, hl]
    rfl
  exact ⟨_, _, hG, rfl, by simp, by simp [loaderCalls, List.countP_append]⟩

theorem C2_peer_hit_witness :
    ∃ g1 env1,
      Group.Get listCache (coldGroup (constGetter [1]) (some (fixedPicker (okPeer [4, 2]))))
        "Tom" env0 = some ((⟨cloneBytes [4, 2]⟩, none), g1, env1) ∧
      g1.mainCache = (coldGroup (constGetter [1]) (some (fixedPicker (okPeer [4, 2])))).mainCache ∧
      env1.calls = env0.calls ++
        [Call.cacheGet "Tom", Call.pickPeer "Tom", Call.peerGet ⟨"scores", "Tom"⟩] ∧
      loaderCalls env1.calls = loaderCalls env0.calls :=
  C2_peer_hit listCache (coldGroup (constGetter [1]) (some (fixedPicker (okPeer [4, 2]))))
    "Tom" env0 (fixedPicker (okPeer [4, 2])) (okPeer [4, 2]) [4, 2]
    (by decide) rfl rfl rfl rfl rfl

/-- C3: a group with the router `p` attached, a non-empty key `k` absent from
the local store, no load for `k` in flight: if `PickPeer(k)` returns `peer`,
the fetch of `peer` fails with the error `e`, and the loader then returns `v`
for `k` with a nil error, then `Get(k)` invokes the loader (once, after the
fetch), returns the `ByteView` of `v` with a nil error, not `e`, and adds `k`
to the local store with that value. -/
theorem C3_peer_failure_falls_back {W S : Type} (C : cache S) (g : Group W S) (k : String)
    (env : Env W) (p : PeerPicker W) (peer : PeerGetter W) (e : GoError) (v : Bytes)
    (hk : k ≠ "") (habs : C.get g.mainCache k = none)
    (hq : g.singleflight.m.lookup k = none)
    (hp : g.picker = some p)
    (hpick : (p.PickPeer k env.world).1 = some peer)
    (hfetch : (peer.Get ⟨g.name, k⟩ (p.PickPeer k env.world).2).1.2 = some e)
    (hloader : (g.getter.Get k (peer.Get ⟨g.name, k⟩ (p.PickPeer k env.world).2).2).1
      = (v, none)) :
    ∃ g1 env1,
      Group.Get C g k env = some ((⟨cloneBytes v⟩, none), g1, env1) ∧
      g1.mainCache = C.add g.mainCache k ⟨cloneBytes v⟩ ∧
      env1.calls = env.calls ++
        [Call.cacheGet k, Call.pickPeer k, Call.peerGet ⟨g.name, k⟩, Call.getterGet k,
          Call.cacheAdd k ⟨cloneBytes v⟩] := by
  have hl := load_quiet C g k (env.record (Call.cacheGet k)) hq
  have hfn : Group.loadFn C k ⟨g, env.record (Call.cacheGet k), ⟨[]⟩, none⟩ =
      ((⟨cloneBytes v⟩, none),
        ⟨{ g with mainCache := C.add g.mainCache k ⟨cloneBytes v⟩ },
          ⟨(g.getter.Get k (peer.Get ⟨g.name, k⟩ (p.PickPeer k env.world).2).2).2,
          env.calls ++ [Call.cacheGet k] ++ [Call.pickPeer k] ++ [Call.peerGet ⟨g.name, k⟩]
            ++ [Call.getterGet k] ++ [Call.cacheAdd k ⟨cloneBytes v⟩]⟩,
          ⟨[]⟩, some e⟩) := by
    simp only [Group.loadFn, hp, Env.record, hpick, Group.getFromPeer, hfetch,
      LoadFrame.getLocally, Group.getLocally, hloader, Group.populateCache]
  rw [hfn] at hl
  have hG : Group.Get C g k env = some ((⟨cloneBytes v⟩, none),
      { g with mainCache := C.add g.mainCache k ⟨cloneBytes v⟩,
               singleflight := g.singleflight.finished k (⟨cloneBytes v⟩, none) },
      ⟨(g.getter.Get k (peer.Get ⟨g.name, k⟩ (p.PickPeer k env.world).2).2).2,
        env.calls ++ [Call.cacheGet k] ++ [Call.pickPeer k] ++ [Call.peerGet ⟨g.name, k⟩]
            ++ [Call.getterGet k] ++ [Call.cacheAdd k ⟨cloneBytes v⟩]⟩) := by
    simp only [Group.Get, hk, if_false, habs, hl]
    rfl
  exact ⟨_, _, hG, rfl, by simp⟩

theorem C3_peer_failure_falls_back_witness :
    ∃ g1 env1,
      Group.Get listCache
          (coldGroup (constGetter [6, 3, 0]) (some (fixedPicker (downPeer "timeout"))))
          "Tom" env0 = some ((⟨cloneBytes [6, 3, 0]⟩, none), g1, env1) ∧
      g1.mainCache = listCache.add
        (coldGroup (constGetter [6, 3, 0]) (some (fixedPicker (downPeer "timeout")))).mainCache
        "Tom" ⟨cloneBytes [6, 3, 0]⟩ ∧
      env1.calls = env0.calls ++
        [Call.cacheGet "Tom", Call.pickPeer "Tom",
          Call.peerGet
            ⟨(coldGroup (constGetter [6, 3, 0]) (some (fixedPicker (downPeer "timeout")))).name,
              "Tom"⟩,
          Call.getterGet "Tom", Call.cacheAdd "Tom" ⟨cloneBytes [6, 3, 0]⟩] :=
  C3_peer_failure_falls_back listCache
    (coldGroup (constGetter [6, 3, 0]) (some (fixedPicker (downPeer "timeout"))))
    "Tom" env0 (fixedPicker (downPeer "timeout")) (downPeer "timeout") ⟨"timeout"⟩ [6, 3, 0]
    (by decide) rfl rfl rfl rfl rfl rfl

/-- C8: a non-empty key `k` absent from the local store, no load for `k` in
flight: whenever the load reaches the loader (no router attached, no peer
picked for `k`, or the picked peer's fetch failed) and the loader fails with
the error `e`, `Get(k)` returns the empty `ByteView` together with exactly
`e`, and the local store is the one before the call. -/
theorem C8_loader_failure {W S : Type} (C : cache S) (g : Group W S) (k : String)
    (env : Env W) (wl : W) (e : GoError)
    (hk : k ≠ "") (habs : C.get g.mainCache k = none)
    (hq : g.singleflight.m.lookup k = none)
    (hreach : g.loaderWorld k env.world = some wl)
    (hfail : (g.getter.Get k wl).1.2 = some e) :
    ∃ g1 env1,
      Group.Get C g k env = some ((⟨[]⟩, some e), g1, env1) ∧
      g1.mainCache = g.mainCache := by
  obtain ⟨g1, env1, h1, -, -, -, h5, -⟩ := Get_loader C g k env wl hk habs hq hreach
  simp only [viewOf, hfail] at h1 h5
  exact ⟨g1, env1, h1, h5⟩

theorem C8_loader_failure_witness :
    ∃ g1 env1,
      Group.Get listCache
          (coldGroup (failGetter "no such key") (some (fixedPicker (downPeer "timeout"))))
          "Tom" env0 = some ((⟨[]⟩, some ⟨"no such key"⟩), g1, env1) ∧
      g1.mainCache =
        (coldGroup (failGetter "no such key")
          (some (fixedPicker (downPeer "timeout")))).mainCache :=
  C8_loader_failure listCache
    (coldGroup (failGetter "no such key") (some (fixedPicker (downPeer "timeout"))))
    "Tom" env0 0 ⟨"no such key"⟩ (by decide) rfl rfl rfl rfl

/-- C9: a group in which no peer is ever picked for the non-empty key `k`,
with no load for `k` in flight. A load for `k` completes with the result of a
loader invocation (a value or an error) and leaves no record for `k` in the
deduplicator; a second load for `k` invokes the loader once more, in the
world the first load left, and returns the result of that new invocation.
In particular, after a `Get(k)` that returned an error, the next `Get(k)`
invokes the loader again and returns the result of that invocation. -/
theorem C9_no_replay {W S : Type} (C : cache S) (g : Group W S) (k : String) (env : Env W)
    (hk : k ≠ "") (hq : g.singleflight.m.lookup k = none)
    (hnopeer : ∀ p, g.picker = some p → ∀ w, (p.PickPeer k w).1 = none) :
    (∃ wl1 g1 env1 wl2 g2 env2,
      g.loaderWorld k env.world = some wl1 ∧
      Group.load C g k env = some (viewOf (g.getter.Get k wl1).1, g1, env1) ∧
      loaderCalls env1.calls = loaderCalls env.calls + 1 ∧
      g1.singleflight.m.lookup k = none ∧
      g1.loaderWorld k env1.world = some wl2 ∧
      Group.load C g1 k env1 = some (viewOf (g.getter.Get k wl2).1, g2, env2) ∧
      loaderCalls env2.calls = loaderCalls env1.calls + 1) ∧
    (∀ bv e ga enva, Group.Get C g k env = some ((bv, some e), ga, enva) →
      ∃ wl3 gb envb,
        ga.loaderWorld k enva.world = some wl3 ∧
        Group.Get C ga k enva = some (viewOf (g.getter.Get k wl3).1, gb, envb) ∧
        loaderCalls envb.calls = loaderCalls enva.calls + 1) := by
  have hnp : ∀ (g1 : Group W S), g1.picker = g.picker → ∀ w,
      ∀ p, g1.picker = some p → (p.PickPeer k w).1 = none := by
    intro g1 hg w p hp
    exact hnopeer p (hg ▸ hp) w
  constructor
  · obtain ⟨wl1, hwl1⟩ := loaderWorld_nopeer g k env.world (hnp g rfl env.world)
    obtain ⟨g1, env1, h1, -, hget, hpick, -, hq1, -, hc1⟩ := load_loader C g k env wl1 hq hwl1
    obtain ⟨wl2, hwl2⟩ := loaderWorld_nopeer g1 k env1.world (hnp g1 hpick env1.world)
    obtain ⟨g2, env2, h2, -, -, -, -, -, -, hc2⟩ := load_loader C g1 k env1 wl2 hq1 hwl2
    rw [hget] at h2
    exact ⟨wl1, g1, env1, wl2, g2, env2, hwl1, h1, hc1, hq1, hwl2, h2, hc2⟩
  · intro bv e ga enva hG
    cases habs : C.get g.mainCache k with
    | some v0 =>
      simp [Group.Get, hk, habs] at hG
    | none =>
      obtain ⟨wl1, hwl1⟩ := loaderWorld_nopeer g k env.world (hnp g rfl env.world)
      obtain ⟨g1, env1, h1, -, hget, hpick, hstore, hq1, -, -⟩ :=
        Get_loader C g k env wl1 hk habs hq hwl1
      rw [h1] at hG
      simp only [Option.some.injEq, Prod.mk.injEq] at hG
      obtain ⟨hv, hga, henv⟩ := hG
      subst hga henv
      have herr : (g.getter.Get k wl1).1.2 = some e := by
        unfold viewOf at hv
        cases hE : (g.getter.Get k wl1).1.2 with
        | none => simp [hE] at hv
        | some e1 =>
          simp only [hE, Prod.mk.injEq, Option.some.injEq] at hv
          rw [hv.2]
      simp only [herr] at hstore
      obtain ⟨wl3, hwl3⟩ := loaderWorld_nopeer g1 k env1.world (hnp g1 hpick env1.world)
      obtain ⟨gb, envb, h3, -, -, -, -, -, -, hc3⟩ :=
        Get_loader C g1 k env1 wl3 hk (hstore ▸ habs) hq1 hwl3
      rw [hget] at h3
      exact ⟨wl3, gb, envb, hwl3, h3, hc3⟩

theorem C9_no_replay_witness :
    (∃ wl1 g1 env1 wl2 g2 env2,
      (coldGroup (flakyGetter [5]) none).loaderWorld "Tom" env0.world = some wl1 ∧
      Group.load listCache (coldGroup (flakyGetter [5]) none) "Tom" env0
        = some (viewOf ((coldGroup (flakyGetter [5]) none).getter.Get "Tom" wl1).1, g1, env1) ∧
      loaderCalls env1.calls = loaderCalls env0.calls + 1 ∧
      g1.singleflight.m.lookup "Tom" = none ∧
      g1.loaderWorld "Tom" env1.world = some wl2 ∧
      Group.load listCache g1 "Tom" env1
        = some (viewOf ((coldGroup (flakyGetter [5]) none).getter.Get "Tom" wl2).1, g2, env2) ∧
      loaderCalls env2.calls = loaderCalls env1.calls + 1) ∧
    (∀ bv e ga enva,
      Group.Get listCache (coldGroup (flakyGetter [5]) none) "Tom" env0
        = some ((bv, some e), ga, enva) →
      ∃ wl3 gb envb,
        ga.loaderWorld "Tom" enva.world = some wl3 ∧
        Group.Get listCache ga "Tom" enva
          = some (viewOf ((coldGroup (flakyGetter [5]) none).getter.Get "Tom" wl3).1, gb, envb) ∧
        loaderCalls envb.calls = loaderCalls enva.calls + 1) :=
  C9_no_replay listCache (coldGroup (flakyGetter [5]) none) "Tom" env0 (by decide) rfl
    (fun p hp => by simp [coldGroup] at hp)

/-- C6: on a group with no router attached, `RegistePeers(p1)` does not panic
and attaches `p1`; a following `RegistePeers(p2)` panics and leaves `p1`
attached. A call on a group with no router attached never panics, whatever
its argument. -/
theorem C6_register_twice {W S : Type} (g : Group W S) (p1 p2 : PeerPicker W)
    (h0 : g.picker = none) :
    (g.RegistePeers (some p1)).1 = Except.ok () ∧
    (g.RegistePeers (some p1)).2.picker = some p1 ∧
    ((g.RegistePeers (some p1)).2.RegistePeers (some p2)).1
      = Except.error "RegistePeers called more than once" ∧
    ((g.RegistePeers (some p1)).2.RegistePeers (some p2)).2.picker = some p1 ∧
    (∀ q, (g.RegistePeers q).1 = Except.ok ()) := by
  simp [Group.RegistePeers, h0]

theorem C6_register_twice_witness :
    ((coldGroup countGetter none).RegistePeers (some selfPicker)).1 = Except.ok () ∧
    ((coldGroup countGetter none).RegistePeers (some selfPicker)).2.picker = some selfPicker ∧
    (((coldGroup countGetter none).RegistePeers (some selfPicker)).2.RegistePeers
        (some (fixedPicker (okPeer [1])))).1
      = Except.error "RegistePeers called more than once" ∧
    (((coldGroup countGetter none).RegistePeers (some selfPicker)).2.RegistePeers
        (some (fixedPicker (okPeer [1])))).2.picker = some selfPicker ∧
    (∀ q, ((coldGroup countGetter none).RegistePeers q).1 = Except.ok ()) :=
  C6_register_twice (coldGroup countGetter none) selfPicker (fixedPicker (okPeer [1])) rfl

/-- C7: for every registry state, name and loader, `NewGroup` panics exactly
when the loader is nil or the name is already in the registry, and then
leaves the package state as it was. Otherwise it returns a `*Group` that was
not allocated before, whose object carries that name and loader, the store
built from `cacheBytes`, no router and an empty deduplicator, and the
registry afterwards maps the name to that `*Group`. -/
theorem C7_new_group {W S : Type} (C : cache S) (name : String) (cacheBytes : Int)
    (getter : Option (Getter W)) (P : Process W S) :
    ((∃ msg, (NewGroup C name cacheBytes getter P).1 = Except.error msg) ↔
      (getter = none ∨ ∃ q, P.groups.lookup name = some q)) ∧
    ((∃ msg, (NewGroup C name cacheBytes getter P).1 = Except.error msg) →
      (NewGroup C name cacheBytes getter P).2 = P) ∧
    (∀ gt, getter = some gt → P.groups.lookup name = none →
      ∃ ptr, (NewGroup C name cacheBytes getter P).1 = Except.ok ptr ∧
        P.heap[ptr]? = none ∧
        (NewGroup C name cacheBytes getter P).2.heap[ptr]? =
          some { name := name, getter := gt, mainCache := C.make cacheBytes, picker := none,
                 singleflight := ⟨[], []⟩ } ∧
        (GetGroup name (NewGroup C name cacheBytes getter P).2).1 = some ptr) := by
  cases getter with
  | none => simp [NewGroup]
  | some gt =>
    cases hl : P.groups.lookup name with
    | some q => simp [NewGroup, hl]
    | none => simp [NewGroup, hl, GetGroup, List.lookup]

/-- A call never removes or replaces an entry of the registry. -/
theorem exec_lookup_some {W S : Type} (C : cache S) (M : Machine W S) (op : Op W)
    (n : String) (q : Nat) (h : M.proc.groups.lookup n = some q) :
    (exec C M op).proc.groups.lookup n = some q := by
  cases op with
  | NewGroup name cb getter =>
    cases getter with
    | none => simpa [exec, NewGroup] using h
    | some gt =>
      cases hl : M.proc.groups.lookup name with
      | some q1 => simpa [exec, NewGroup, hl] using h
      | none =>
        have hne : (n == name) = false := by
          simp only [beq_eq_false_iff_ne, ne_eq]
          intro hnn
          rw [hnn, hl] at h
          exact Option.noConfusion h
        simp [exec, NewGroup, hl, List.lookup, hne, h]
  | GetGroup name => simpa [exec, GetGroup] using h
  | RegistePeers ptr picker =>
    simp only [exec]
    cases M.proc.heap[ptr]? <;> simpa using h
  | Get ptr key =>
    simp only [exec]
    cases M.proc.heap[ptr]? with
    | none => simpa using h
    | some g =>
      simp only []
      cases g.Get C key M.env <;> simpa using h

theorem run_lookup_some {W S : Type} (C : cache S) (ops : List (Op W)) (M : Machine W S)
    (n : String) (q : Nat) (h : M.proc.groups.lookup n = some q) :
    (run C M ops).proc.groups.lookup n = some q := by
  induction ops generalizing M with
  | nil => exact h
  | cons op ops ih => exact ih (exec C M op) (exec_lookup_some C M op n q h)

/-- A call other than a `NewGroup` of `n` with a loader adds no entry for `n`. -/
theorem exec_lookup_none {W S : Type} (C : cache S) (M : Machine W S) (op : Op W)
    (n : String) (hop : ∀ cb gt, op ≠ Op.NewGroup n cb (some gt))
    (h : M.proc.groups.lookup n = none) :
    (exec C M op).proc.groups.lookup n = none := by
  cases op with
  | NewGroup name cb getter =>
    cases getter with
    | none => simpa [exec, NewGroup] using h
    | some gt =>
      cases hl : M.proc.groups.lookup name with
      | some q1 => simpa [exec, NewGroup, hl] using h
      | none =>
        have hne : (n == name) = false := by
          simp only [beq_eq_false_iff_ne, ne_eq]
          intro hnn
          exact hop cb gt (by rw [hnn])
        simp [exec, NewGroup, hl, List.lookup, hne, h]
  | GetGroup name => simpa [exec, GetGroup] using h
  | RegistePeers ptr picker =>
    simp only [exec]
    cases M.proc.heap[ptr]? <;> simpa using h
  | Get ptr key =>
    simp only [exec]
    cases M.proc.heap[ptr]? with
    | none => simpa using h
    | some g =>
      simp only []
      cases g.Get C key M.env <;> simpa using h

theorem run_lookup_none {W S : Type} (C : cache S) (ops : List (Op W)) (M : Machine W S)
    (n : String) (hops : ∀ op ∈ ops, ∀ cb gt, op ≠ Op.NewGroup n cb (some gt))
    (h : M.proc.groups.lookup n = none) :
    (run C M ops).proc.groups.lookup n = none := by
  induction ops generalizing M with
  | nil => exact h
  | cons op ops ih =>
    exact ih (exec C M op) (fun o ho => hops o (List.mem_cons_of_mem _ ho))
      (exec_lookup_none C M op n (hops op (List.mem_cons_self _ _)) h)

/-- C10: for every sequence `ops1` of `NewGroup`, `GetGroup`, `RegistePeers`
and `Get` calls from the empty registry, once a `NewGroup(name, ...)` made
after it has returned the `*Group` `ptr`, `GetGroup(name)` returns `ptr`
after every further sequence `ops2` of such calls. `GetGroup` of a name for
which no `NewGroup` with a loader was called returns nil, and `GetGroup`
leaves the package state as it was. -/
theorem C10_registry_is_append_only {W S : Type} (C : cache S) (env : Env W)
    (ops1 ops2 : List (Op W)) (name : String) (cacheBytes : Int)
    (getter : Option (Getter W)) (ptr : Nat)
    (hnew : (NewGroup C name cacheBytes getter (run C (Machine.init env) ops1).proc).1
      = Except.ok ptr) :
    (GetGroup name
      (run C (exec C (run C (Machine.init env) ops1) (Op.NewGroup name cacheBytes getter))
        ops2).proc).1 = some ptr ∧
    (∀ (ops : List (Op W)) (other : String),
      (∀ op ∈ ops, ∀ cb gt, op ≠ Op.NewGroup other cb (some gt)) →
      (GetGroup other (run C (Machine.init env) ops).proc).1 = none) ∧
    (∀ (other : String) (P : Process W S), (GetGroup other P).2 = P) := by
  refine ⟨?_, ?_, fun _ _ => rfl⟩
  · apply run_lookup_some
    generalize (run C (Machine.init env) ops1) = M at hnew
    cases getter with
    | none => simp [NewGroup] at hnew
    | some gt =>
      cases hl : M.proc.groups.lookup name with
      | some q1 => simp [NewGroup, hl] at hnew
      | none =>
        simp only [NewGroup, hl, Except.ok.injEq] at hnew
        simp [exec, NewGroup, hl, List.lookup, hnew]
  · intro ops other hops
    exact run_lookup_none C ops (Machine.init env) other hops rfl

theorem C10_registry_is_append_only_witness :
    (GetGroup "scores"
      (run listCache
        (exec listCache
          (run listCache (Machine.init env0)
            [Op.NewGroup "ages" 64 (some countGetter), Op.Get 0 "Tom"])
          (Op.NewGroup "scores" 2048 (some (constGetter [1]))))
        [Op.RegistePeers 1 (some selfPicker), Op.Get 1 "Tom",
          Op.NewGroup "scores" 8 (some countGetter), Op.NewGroup "names" 8 none,
          Op.GetGroup "scores"]).proc).1 = some 1 ∧
    (∀ (ops : List (Op Nat)) (other : String),
      (∀ op ∈ ops, ∀ cb gt, op ≠ Op.NewGroup other cb (some gt)) →
      (GetGroup other (run listCache (Machine.init env0) ops).proc).1 = none) ∧
    (∀ (other : String) (P : Process Nat (List (String × ByteView))),
      (GetGroup other P).2 = P) :=
  C10_registry_is_append_only listCache env0
    [Op.NewGroup "ages" 64 (some countGetter), Op.Get 0 "Tom"]
    [Op.RegistePeers 1 (some selfPicker), Op.Get 1 "Tom",
      Op.NewGroup "scores" 8 (some countGetter), Op.NewGroup "names" 8 none,
      Op.GetGroup "scores"]
    "scores" 2048 (some (constGetter [1])) 1 rfl

/-! ## Concurrent callers -/

theorem step_pcs_ne {W S : Type} {n : Nat} (C : cache S) (k : String) (cfg : Cfg W S n)
    (i j : Fin n) (h : j ≠ i) : (step C k cfg i).pcs j = cfg.pcs j := by
  unfold step
  split
  · split
    · simp [Cfg.setPc, Function.update_noteq h]
    · split <;> simp [Cfg.setPc, Function.update_noteq h]
  · split <;> simp [Cfg.setPc, Cfg.setSf, Function.update_noteq h]
  · simp [Cfg.setPc, Function.update_noteq h]
  · simp [Cfg.setPc, Cfg.setSf, Function.update_noteq h]
  · simp [Cfg.setPc, Cfg.setSf, Function.update_noteq h]
  · simp [Cfg.setPc, Cfg.setSf, Function.update_noteq h]
  · split
    · split
      · simp [Cfg.setPc, Function.update_noteq h]
      · rfl
    · rfl
  · rfl

/-- A caller that has left stays so. -/
theorem step_left {W S : Type} {n : Nat} (C : cache S) (k : String) (cfg : Cfg W S n)
    (i j : Fin n) (h : (cfg.pcs j).left = true) : ((step C k cfg i).pcs j).left = true := by
  by_cases hji : j = i
  · subst hji
    cases hpc : cfg.pcs j <;> rw [hpc] at h <;> simp [Pc.left] at h
    · simp [step, hpc, Cfg.setPc, Cfg.setSf, Pc.left]
    · simp [step, hpc, Pc.left]
  · rw [step_pcs_ne C k cfg i j hji]
    exact h

theorem loaderCalls_cacheGet (cs : List Call) (k : String) :
    loaderCalls (cs ++ [Call.cacheGet k]) = loaderCalls cs := by
  simp [loaderCalls, List.countP_append]

/-- The closure in a group with no router: one loader invocation; the router,
the deduplicator and the named result `value` are left as they were. -/
theorem loadFn_no_router {W S : Type} (C : cache S) (g : Group W S) (k : String)
    (env : Env W) (hp : g.picker = none) :
    (Group.loadFn C k ⟨g, env, ⟨[]⟩, none⟩).2.value = ⟨[]⟩ ∧
    (Group.loadFn C k ⟨g, env, ⟨[]⟩, none⟩).2.g.picker = none ∧
    (Group.loadFn C k ⟨g, env, ⟨[]⟩, none⟩).2.g.singleflight = g.singleflight ∧
    loaderCalls (Group.loadFn C k ⟨g, env, ⟨[]⟩, none⟩).2.env.calls
      = loaderCalls env.calls + 1 := by
  simp only [Group.loadFn, hp, LoadFrame.getLocally, Group.getLocally, Group.populateCache,
    Env.record]
  cases (g.getter.Get k env.world).1.2 <;>
    simp [loaderCalls, List.countP_append, hp]

/-- While the leader has not left, its record is in the mapping, unresolved. -/
theorem LeaderOK_inflight (k : String) (base c : Nat) (sf : singleflight.Group) (count : Nat)
    (p : Pc) (h : LeaderOK k base c sf count p) (hl : p.left = false) :
    sf.m.lookup k = some c ∧ ∃ r, sf.calls[c]? = some r ∧ r.resolved = false := by
  cases p <;> simp [LeaderOK, Pc.left] at h hl
  · exact ⟨h.2.1, h.2.2.1⟩
  · exact ⟨h.2.2.1, h.2.2.2.1⟩
  · exact ⟨h.2.2.1, _, h.2.2.2.1, rfl⟩

/-- If no caller has left after a step, none had before it. -/
theorem not_left_before {W S : Type} {n : Nat} (C : cache S) (k : String) (cfg : Cfg W S n)
    (i : Fin n) (h : ∀ j, ((step C k cfg i).pcs j).left = false) (j : Fin n) :
    (cfg.pcs j).left = false := by
  cases hb : (cfg.pcs j).left
  · rfl
  · have := step_left C k cfg i j hb
    rw [h j] at this
    exact Bool.noConfusion this

/-- A caller before `Do` that takes a step without leaving has missed the
store (or stays where it is): the deduplicator, the router and the number of
loader invocations are unchanged, and it stands at `missed`. -/
theorem step_start {W S : Type} {n : Nat} (C : cache S) (k : String) (cfg : Cfg W S n)
    (i : Fin n) (hpc : cfg.pcs i = Pc.start)
    (hnl : ((step C k cfg i).pcs i).left = false) :
    (step C k cfg i).g = cfg.g ∧
    loaderCalls (step C k cfg i).env.calls = loaderCalls cfg.env.calls ∧
    (step C k cfg i).pcs i = Pc.missed := by
  unfold step at hnl ⊢
  simp only [hpc] at hnl ⊢
  by_cases hk : k = ""
  · simp [hk, Cfg.setPc, Pc.left] at hnl
  · simp only [hk, if_false] at hnl ⊢
    cases hget : C.get cfg.g.mainCache k with
    | some v => simp [hget, Cfg.setPc, Pc.left] at hnl
    | none => simp [Cfg.setPc, Env.record, loaderCalls_cacheGet]

theorem step_missed_none {W S : Type} {n : Nat} (C : cache S) (k : String)
    (cfg : Cfg W S n) (i : Fin n) (hpc : cfg.pcs i = Pc.missed)
    (hlk : cfg.g.singleflight.m.lookup k = none) :
    step C k cfg i =
      (cfg.setSf ⟨(k, cfg.g.singleflight.calls.length) :: cfg.g.singleflight.m,
          cfg.g.singleflight.calls ++ [⟨false, ⟨[]⟩, none⟩]⟩).setPc i
        (Pc.leading cfg.g.singleflight.calls.length) := by
  simp only [step, hpc, singleflight.Group.enter, hlk]

theorem step_missed_some {W S : Type} {n : Nat} (C : cache S) (k : String)
    (cfg : Cfg W S n) (i : Fin n) (c : Nat) (hpc : cfg.pcs i = Pc.missed)
    (hlk : cfg.g.singleflight.m.lookup k = some c) :
    step C k cfg i = (cfg.setSf cfg.g.singleflight).setPc i (Pc.waiting c) := by
  simp only [step, hpc, singleflight.Group.enter, hlk]

theorem step_waiting_unresolved {W S : Type} {n : Nat} (C : cache S) (k : String)
    (cfg : Cfg W S n) (i : Fin n) (c : Nat) (r : singleflight.call)
    (hpc : cfg.pcs i = Pc.waiting c) (hr : cfg.g.singleflight.calls[c]? = some r)
    (hu : r.resolved = false) :
    step C k cfg i = cfg := by
  simp [step, hpc, hr, hu]

/-- A step of the leader of the record `c` in a group with no router: the
leader is where the invariant says, and the callers that wait on `c` or have
returned its result are unaffected. -/
theorem Leader_step {W S : Type} {n : Nat} (C : cache S) (k : String) (base c : Nat)
    (cfg : Cfg W S n) (L : Fin n) (hpk : cfg.g.picker = none)
    (hL : LeaderOK k base c cfg.g.singleflight (loaderCalls cfg.env.calls) (cfg.pcs L)) :
    (step C k cfg L).g.picker = none ∧
    LeaderOK k base c (step C k cfg L).g.singleflight
      (loaderCalls (step C k cfg L).env.calls) ((step C k cfg L).pcs L) ∧
    (∀ q, FollowerOK c cfg.g.singleflight q →
      FollowerOK c (step C k cfg L).g.singleflight q) := by
  cases hpc : cfg.pcs L with
  | start => simp [hpc, LeaderOK] at hL
  | missed => simp [hpc, LeaderOK] at hL
  | waiting c1 => simp [hpc, LeaderOK] at hL
  | leading c1 =>
    simp only [hpc, LeaderOK] at hL
    obtain ⟨hc, hlk, hr, hcnt⟩ := hL
    obtain ⟨h1, h2, h3, h4⟩ := loadFn_no_router C cfg.g k cfg.env hpk
    simp only [step, hpc, Cfg.setPc, Function.update_same, LeaderOK]
    rw [h1, h2, h3, h4]
    refine ⟨rfl, ⟨hc, ?_, hlk, hr, ?_⟩, fun q hq => hq⟩
    · rfl
    · rw [hcnt]
  | computed c1 view value =>
    simp only [hpc, LeaderOK] at hL
    obtain ⟨hc, hv, hlk, ⟨r, hr, hu⟩, hcnt⟩ := hL
    have hlt : c < cfg.g.singleflight.calls.length := by
      by_contra hge
      rw [List.getElem?_eq_none (Nat.le_of_not_lt hge)] at hr
      exact Option.noConfusion hr
    subst hc
    simp only [step, hpc, Cfg.setPc, Cfg.setSf, Function.update_same, LeaderOK,
      singleflight.Group.store]
    refine ⟨hpk, ⟨trivial, hv, hlk, List.getElem?_set_self hlt, hcnt⟩, ?_⟩
    intro q hq
    cases q <;> simp only [FollowerOK] at hq ⊢
    · exact hq
    · obtain ⟨w, -, hw⟩ := hq
      rw [hr] at hw
      simp only [Option.some.injEq] at hw
      rw [hw] at hu
      exact Bool.noConfusion hu
  | stored c1 view value =>
    simp only [hpc, LeaderOK] at hL
    obtain ⟨hc, hv, hlk, hr, hcnt⟩ := hL
    simp only [step, hpc, Cfg.setPc, Cfg.setSf, Function.update_same, LeaderOK,
      singleflight.Group.remove]
    exact ⟨hpk, ⟨hc, hv, hr, hcnt⟩, fun q hq => hq⟩
  | removed c1 view value =>
    simp only [hpc, LeaderOK] at hL
    obtain ⟨hc, hv, hr, hcnt⟩ := hL
    subst hc
    simp only [step, hpc, Cfg.setPc, Cfg.setSf, Function.update_same, LeaderOK,
      singleflight.Group.signal]
    refine ⟨hpk, ⟨view, by rw [hv], by simp [hr], hcnt⟩, ?_⟩
    intro q hq
    cases q <;> simp only [FollowerOK] at hq ⊢
    · exact hq
    · obtain ⟨w, -, hw⟩ := hq
      rw [hr] at hw
      simp at hw
  | returned r =>
    have hs : step C k cfg L = cfg := by simp [step, hpc]
    rw [hs]
    exact ⟨hpk, hL, fun q hq => hq⟩

theorem Entering_step {W S : Type} {n : Nat} (C : cache S) (k : String) (base : Nat)
    (cfg : Cfg W S n) (i : Fin n) (hE : Entering k base cfg)
    (hnl : ∀ j, ((step C k cfg i).pcs j).left = false) :
    Entering k base (step C k cfg i) := by
  obtain ⟨hpk, hcase⟩ := hE
  rcases hcase with ⟨hlk, hcnt, hall⟩ | ⟨c, L, hL, hothers⟩
  · rcases hall i with hi | hi
    · obtain ⟨hg, hc, hp⟩ := step_start C k cfg i hi (hnl i)
      refine ⟨by rw [hg]; exact hpk, Or.inl ⟨by rw [hg]; exact hlk, by rw [hc]; exact hcnt, ?_⟩⟩
      intro j
      by_cases hji : j = i
      · subst hji; exact Or.inr hp
      · rw [step_pcs_ne C k cfg i j hji]; exact hall j
    · refine ⟨?_, Or.inr ⟨cfg.g.singleflight.calls.length, i, ?_, ?_⟩⟩
      · rw [step_missed_none C k cfg i hi hlk]; exact hpk
      · rw [step_missed_none C k cfg i hi hlk]
        simp [Cfg.setPc, Cfg.setSf, LeaderOK, List.lookup, hcnt]
      · intro j hji
        rw [step_pcs_ne C k cfg i j hji]
        rcases hall j with hj | hj <;> simp [hj, EntrantOK]
  · have hLnl : (cfg.pcs L).left = false := not_left_before C k cfg i hnl L
    obtain ⟨hlk, r, hr, hu⟩ := LeaderOK_inflight k base c _ _ _ hL hLnl
    by_cases hiL : i = L
    · subst hiL
      obtain ⟨h1, h2, -⟩ := Leader_step C k base c cfg i hpk hL
      exact ⟨h1, Or.inr ⟨c, i, h2, fun j hj => by
        rw [step_pcs_ne C k cfg i j hj]; exact hothers j hj⟩⟩
    · have hLsame : (step C k cfg i).pcs L = cfg.pcs L :=
        step_pcs_ne C k cfg i L (fun h => hiL h.symm)
      have hframe : (step C k cfg i).g = cfg.g ∧
          loaderCalls (step C k cfg i).env.calls = loaderCalls cfg.env.calls ∧
          EntrantOK c ((step C k cfg i).pcs i) := by
        have hi := hothers i hiL
        cases hpc : cfg.pcs i <;> rw [hpc] at hi <;> simp only [EntrantOK] at hi
        · obtain ⟨hg, hc, hp⟩ := step_start C k cfg i hpc (hnl i)
          exact ⟨hg, hc, by simp [hp, EntrantOK]⟩
        · rw [step_missed_some C k cfg i c hpc hlk]
          simp [Cfg.setPc, Cfg.setSf, EntrantOK]
        · subst hi
          rw [step_waiting_unresolved C k cfg i _ r hpc hr hu]
          simp [hpc, EntrantOK]
      obtain ⟨hg, hc, hp⟩ := hframe
      refine ⟨by rw [hg]; exact hpk, Or.inr ⟨c, L, ?_, ?_⟩⟩
      · rw [hg, hc, hLsame]; exact hL
      · intro j hjL
        by_cases hji : j = i
        · subst hji; exact hp
        · rw [step_pcs_ne C k cfg i j hji]; exact hothers j hjL

/-- As long as no caller has left at the end of an interleaving, the
invariant `Entering` holds at its end. -/
theorem Entering_run {W S : Type} {n : Nat} (C : cache S) (k : String) (base : Nat)
    (sched : List (Fin n)) (cfg : Cfg W S n) (hE : Entering k base cfg)
    (hnl : ∀ j, ((runSched C k cfg sched).pcs j).left = false) :
    Entering k base (runSched C k cfg sched) := by
  induction sched generalizing cfg with
  | nil => exact hE
  | cons i rest ih =>
    have hmid : ∀ (s : List (Fin n)) (c0 : Cfg W S n),
        (∀ j, ((runSched C k c0 s).pcs j).left = false) → ∀ j, (c0.pcs j).left = false := by
      intro s
      induction s with
      | nil => intro c0 h; exact h
      | cons a s ihs =>
        intro c0 h
        exact not_left_before C k c0 a (ihs (step C k c0 a) h)
    exact ih (step C k cfg i) (Entering_step C k base cfg i hE (hmid rest _ hnl)) hnl

/-- A step of a caller that waits on `c` or has returned its result. -/
theorem Follower_step {W S : Type} {n : Nat} (C : cache S) (k : String) (c : Nat)
    (cfg : Cfg W S n) (i : Fin n) (hF : FollowerOK c cfg.g.singleflight (cfg.pcs i)) :
    (step C k cfg i).g = cfg.g ∧ (step C k cfg i).env = cfg.env ∧
    FollowerOK c cfg.g.singleflight ((step C k cfg i).pcs i) := by
  cases hpc : cfg.pcs i with
  | start => simp [hpc, FollowerOK] at hF
  | missed => simp [hpc, FollowerOK] at hF
  | leading c1 => simp [hpc, FollowerOK] at hF
  | computed c1 v x => simp [hpc, FollowerOK] at hF
  | stored c1 v x => simp [hpc, FollowerOK] at hF
  | removed c1 v x => simp [hpc, FollowerOK] at hF
  | waiting c1 =>
    cases hr : cfg.g.singleflight.calls[c1]? with
    | none =>
      have hs : step C k cfg i = cfg := by simp [step, hpc, hr]
      rw [hs]
      exact ⟨rfl, rfl, hF⟩
    | some r =>
      cases hu : r.resolved with
      | false =>
        have hs : step C k cfg i = cfg := by simp [step, hpc, hr, hu]
        rw [hs]
        exact ⟨rfl, rfl, hF⟩
      | true =>
        simp only [hpc, FollowerOK] at hF
        subst hF
        simp only [step, hpc, hr, hu, if_true, Cfg.setPc, Function.update_same, FollowerOK,
          true_and]
        refine ⟨(r.val, r.err), rfl, ?_⟩
        cases r
        simp only [Option.some.injEq, singleflight.call.mk.injEq, and_true] at hu ⊢
        exact hu
  | returned r =>
    have hs : step C k cfg i = cfg := by simp [step, hpc]
    rw [hs]
    exact ⟨rfl, rfl, hF⟩

theorem runSched_append {W S : Type} {n : Nat} (C : cache S) (k : String) (cfg : Cfg W S n)
    (pre post : List (Fin n)) :
    runSched C k cfg (pre ++ post) = runSched C k (runSched C k cfg pre) post := by
  simp [runSched, List.foldl_append]

theorem OverlapAt_step {W S : Type} {n : Nat} (C : cache S) (k : String) (base c : Nat)
    (L : Fin n) (cfg : Cfg W S n) (i : Fin n) (hO : OverlapAt k base c L cfg) :
    OverlapAt k base c L (step C k cfg i) := by
  obtain ⟨hpk, hL, hF⟩ := hO
  by_cases hiL : i = L
  · subst hiL
    obtain ⟨h1, h2, h3⟩ := Leader_step C k base c cfg i hpk hL
    exact ⟨h1, h2, fun j hj => by
      rw [step_pcs_ne C k cfg i j hj]; exact h3 _ (hF j hj)⟩
  · obtain ⟨hg, he, hp⟩ := Follower_step C k c cfg i (hF i hiL)
    refine ⟨by rw [hg]; exact hpk, ?_, ?_⟩
    · rw [hg, he, step_pcs_ne C k cfg i L (fun h => hiL h.symm)]; exact hL
    · intro j hjL
      rw [hg]
      by_cases hji : j = i
      · subst hji; exact hp
      · rw [step_pcs_ne C k cfg i j hji]; exact hF j hjL

theorem OverlapAt_run {W S : Type} {n : Nat} (C : cache S) (k : String) (base c : Nat)
    (L : Fin n) (sched : List (Fin n)) (cfg : Cfg W S n) (hO : OverlapAt k base c L cfg) :
    OverlapAt k base c L (runSched C k cfg sched) := by
  induction sched generalizing cfg with
  | nil => exact hO
  | cons i rest ih => exact ih (step C k cfg i) (OverlapAt_step C k base c L cfg i hO)

/-- At a moment at which every caller is inside `Do` with its record still in
flight, there is one leader and the others wait on its record. -/
theorem Overlap_of_Entering {W S : Type} {n : Nat} (k : String) (base : Nat)
    (cfg : Cfg W S n) (hn : 0 < n) (hE : Entering k base cfg)
    (hin : ∀ j, (cfg.pcs j).inFlight = true) : Overlap k base cfg := by
  obtain ⟨hpk, hcase⟩ := hE
  rcases hcase with ⟨-, -, hall⟩ | ⟨c, L, hL, hothers⟩
  · have h0 := hin ⟨0, hn⟩
    rcases hall ⟨0, hn⟩ with h | h <;> simp [h, Pc.inFlight] at h0
  · refine ⟨c, L, hpk, hL, fun j hj => ?_⟩
    have h1 := hothers j hj
    have h2 := hin j
    cases hpc : cfg.pcs j <;> rw [hpc] at h1 h2 <;>
      simp [EntrantOK, Pc.inFlight, FollowerOK] at h1 h2 ⊢
    exact h1

/-- A caller that has returned stays so. -/
theorem step_returned {W S : Type} {n : Nat} (C : cache S) (k : String) (cfg : Cfg W S n)
    (i j : Fin n) (h : (cfg.pcs j).isReturned = true) :
    ((step C k cfg i).pcs j).isReturned = true := by
  by_cases hji : j = i
  · subst hji
    cases hpc : cfg.pcs j <;> rw [hpc] at h <;> simp [Pc.isReturned] at h
    simp [step, hpc, Pc.isReturned]
  · rw [step_pcs_ne C k cfg i j hji]
    exact h

/-- Each step of the leader takes it one place further, up to its return. -/
theorem Leader_advances {W S : Type} {n : Nat} (C : cache S) (k : String) (base c : Nat)
    (cfg : Cfg W S n) (L : Fin n)
    (hL : LeaderOK k base c cfg.g.singleflight (loaderCalls cfg.env.calls) (cfg.pcs L)) :
    min 4 ((cfg.pcs L).rank + 1) ≤ ((step C k cfg L).pcs L).rank := by
  cases hpc : cfg.pcs L <;> rw [hpc] at hL <;> simp only [LeaderOK] at hL <;>
    simp [step, hpc, Cfg.setPc, Cfg.setSf, Pc.rank]

/-- Four steps of the leader bring it to its return. -/
theorem Leader_returns {W S : Type} {n : Nat} (C : cache S) (k : String) (base c : Nat)
    (L : Fin n) (cfg : Cfg W S n) (hO : OverlapAt k base c L cfg) :
    ((runSched C k cfg [L, L, L, L]).pcs L).isReturned = true := by
  have h1 := Leader_advances C k base c cfg L hO.2.1
  have hO1 := OverlapAt_step C k base c L cfg L hO
  have h2 := Leader_advances C k base c _ L hO1.2.1
  have hO2 := OverlapAt_step C k base c L _ L hO1
  have h3 := Leader_advances C k base c _ L hO2.2.1
  have hO3 := OverlapAt_step C k base c L _ L hO2
  have h4 := Leader_advances C k base c _ L hO3.2.1
  have hO4 := OverlapAt_step C k base c L _ L hO3
  have hr : 4 ≤ ((runSched C k cfg [L, L, L, L]).pcs L).rank := by
    simp only [runSched, List.foldl]
    omega
  have hL4 : LeaderOK k base c (runSched C k cfg [L, L, L, L]).g.singleflight
      (loaderCalls (runSched C k cfg [L, L, L, L]).env.calls)
      ((runSched C k cfg [L, L, L, L]).pcs L) := hO4.2.1
  cases hpc : (runSched C k cfg [L, L, L, L]).pcs L <;> rw [hpc] at hr hL4 <;>
    simp [Pc.rank, LeaderOK, Pc.isReturned] at hr hL4 ⊢

/-- Once the leader has returned, a step of any caller returns that caller. -/
theorem Follower_returns {W S : Type} {n : Nat} (C : cache S) (k : String) (base c : Nat)
    (L : Fin n) (cfg : Cfg W S n) (hO : OverlapAt k base c L cfg)
    (hLr : (cfg.pcs L).isReturned = true) (j : Fin n) :
    ((step C k cfg j).pcs j).isReturned = true := by
  by_cases hj : j = L
  · subst hj
    exact step_returned C k cfg j j hLr
  · obtain ⟨-, hL, hF⟩ := hO
    have hFj := hF j hj
    cases hpL : cfg.pcs L <;> rw [hpL] at hLr hL <;> simp [Pc.isReturned] at hLr
    simp only [LeaderOK] at hL
    obtain ⟨view, -, hrec, -⟩ := hL
    cases hpc : cfg.pcs j <;> rw [hpc] at hFj <;> simp only [FollowerOK] at hFj
    · subst hFj
      simp [step, hpc, hrec, Cfg.setPc, Pc.isReturned]
    · simp [step, hpc, Pc.isReturned]

/-- Once the leader has returned, a step of each caller of a list returns each
of them, and the callers that had returned stay so. -/
theorem all_return {W S : Type} {n : Nat} (C : cache S) (k : String) (base c : Nat)
    (L : Fin n) (l : List (Fin n)) (cfg : Cfg W S n) (hO : OverlapAt k base c L cfg)
    (hLr : (cfg.pcs L).isReturned = true) (j : Fin n)
    (hj : j ∈ l ∨ (cfg.pcs j).isReturned = true) :
    ((runSched C k cfg l).pcs j).isReturned = true := by
  induction l generalizing cfg with
  | nil =>
    rcases hj with h | h
    · simp at h
    · exact h
  | cons a l ih =>
    have hO1 := OverlapAt_step C k base c L cfg a hO
    have hL1 := step_returned C k cfg a L hLr
    apply ih (step C k cfg a) hO1 hL1
    rcases hj with h | h
    · rcases List.mem_cons.1 h with h1 | h1
      · subst h1
        exact Or.inr (Follower_returns C k base c L cfg hO hLr j)
      · exact Or.inl h1
    · exact Or.inr (step_returned C k cfg a j h)

/-- From a moment of overlap, the leader's four steps followed by one step of
every caller complete all the calls. -/
theorem Overlap_completes {W S : Type} {n : Nat} (C : cache S) (k : String) (base : Nat)
    (cfg : Cfg W S n) (hO : Overlap k base cfg) :
    ∃ post, ∀ i, ((runSched C k cfg post).pcs i).isReturned = true := by
  obtain ⟨c, L, hO⟩ := hO
  refine ⟨[L, L, L, L] ++ List.finRange n, fun i => ?_⟩
  rw [runSched_append]
  exact all_return C k base c L (List.finRange n) _ (OverlapAt_run C k base c L _ cfg hO)
    (Leader_returns C k base c L cfg hO) i (Or.inl (List.mem_finRange i))

/-- The closure neither reads nor writes the deduplicator. -/
theorem loadFn_singleflight {W S : Type} (C : cache S) (k : String) (g : Group W S)
    (env : Env W) (v : ByteView) (e : error) (sf : singleflight.Group) :
    Group.loadFn C k ⟨{ g with singleflight := sf }, env, v, e⟩ =
      ((Group.loadFn C k ⟨g, env, v, e⟩).1,
        { (Group.loadFn C k ⟨g, env, v, e⟩).2 with
          g := { (Group.loadFn C k ⟨g, env, v, e⟩).2.g with singleflight := sf } }) := by
  have hloc : ∀ (env1 : Env W) (v1 : ByteView) (e1 : error),
      LoadFrame.getLocally C k ⟨{ g with singleflight := sf }, env1, v1, e1⟩ =
        ((LoadFrame.getLocally C k ⟨g, env1, v1, e1⟩).1,
          { (LoadFrame.getLocally C k ⟨g, env1, v1, e1⟩).2 with
            g := { (LoadFrame.getLocally C k ⟨g, env1, v1, e1⟩).2.g with
              singleflight := sf } }) := by
    intro env1 v1 e1
    simp only [LoadFrame.getLocally, Group.getLocally, Group.populateCache]
    cases (g.getter.Get k env1.world).1.2 <;> rfl
  unfold Group.loadFn
  cases hp : g.picker with
  | none => simpa only [hp] using hloc env v e
  | some p =>
    simp only []
    cases hpk : (p.PickPeer k env.world).1 with
    | none => simpa only [hp, hpk] using hloc _ v e
    | some peer =>
      simp only []
      cases hf : (peer.Get ⟨g.name, k⟩ (p.PickPeer k env.world).2).1.2 with
      | none => simp only [Group.getFromPeer, hf, hp]
      | some e1 => simpa only [hp, hpk, Group.getFromPeer, hf] using hloc _ _ _

/-- The two models agree: a single caller that takes its six steps on a group
with no load for `k` in flight returns what `Get` returns, and leaves the
group and the environment as `Get` does. -/
theorem one_caller_is_Get {W S : Type} (C : cache S) (k : String) (g : Group W S)
    (env : Env W) (hq : g.singleflight.m.lookup k = none) :
    ∃ r g1 env1, Group.Get C g k env = some (r, g1, env1) ∧
      (runSched C k (Cfg.init 1 g env) [0, 0, 0, 0, 0, 0]).pcs 0 = Pc.returned r ∧
      (runSched C k (Cfg.init 1 g env) [0, 0, 0, 0, 0, 0]).g = g1 ∧
      (runSched C k (Cfg.init 1 g env) [0, 0, 0, 0, 0, 0]).env = env1 := by
  by_cases hk : k = ""
  · have hG : Group.Get C g k env = some ((⟨[]⟩, some ⟨"key is required"⟩), g, env) := by
      simp only [Group.Get, hk, if_true]
    refine ⟨_, _, _, hG, ?_⟩
    simp [runSched, step, Cfg.init, hk, Cfg.setPc]
  · cases hget : C.get g.mainCache k with
    | some v =>
      have hG : Group.Get C g k env = some ((v, none), g, env.record (Call.cacheGet k)) := by
        simp only [Group.Get, hk, if_false, hget]
      refine ⟨_, _, _, hG, ?_⟩
      simp [runSched, step, Cfg.init, hk, hget, Cfg.setPc]
    | none =>
      have hl := load_quiet C g k (env.record (Call.cacheGet k)) hq
      have hG : Group.Get C g k env = Group.load C g k (env.record (Call.cacheGet k)) := by
        simp only [Group.Get, hk, if_false, hget]
      rw [← hG] at hl
      refine ⟨_, _, _, hl, ?_⟩
      have hsf := loadFn_singleflight C k g (env.record (Call.cacheGet k)) ⟨[]⟩ none
        ⟨(k, g.singleflight.calls.length) :: g.singleflight.m,
          g.singleflight.calls ++ [⟨false, ⟨[]⟩, none⟩]⟩
      simp [runSched, step, Cfg.init, hk, hget, Cfg.setPc, Cfg.setSf, singleflight.Group.enter,
        hq, singleflight.Group.finished, hsf]

theorem not_left_of_inFlight (p : Pc) (h : p.inFlight = true) : p.left = false := by
  cases p <;> simp [Pc.inFlight, Pc.left] at h ⊢

/-- With every caller returned, the invariant `Overlap` gives one loader
invocation and one result for all. -/
theorem Overlap_done {W S : Type} {n : Nat} (k : String) (base : Nat) (cfg : Cfg W S n)
    (hO : Overlap k base cfg) (hdone : ∀ i, (cfg.pcs i).isReturned = true) :
    loaderCalls cfg.env.calls = base + 1 ∧ ∃ r, ∀ i, cfg.pcs i = Pc.returned r := by
  obtain ⟨c, L, -, hL, hF⟩ := hO
  have hLd := hdone L
  cases hpc : cfg.pcs L with
  | returned r =>
    simp only [hpc, LeaderOK] at hL
    obtain ⟨view, hr, hrec, hcnt⟩ := hL
    refine ⟨hcnt, r, fun j => ?_⟩
    by_cases hj : j = L
    · rw [hj, hpc]
    · have h1 := hF j hj
      have h2 := hdone j
      cases hpj : cfg.pcs j with
      | returned r1 =>
        simp only [hpj, FollowerOK] at h1
        obtain ⟨view1, hr1, hrec1⟩ := h1
        rw [hrec] at hrec1
        simp only [Option.some.injEq, singleflight.call.mk.injEq, true_and] at hrec1
        have hv : view1 = view := Prod.ext hrec1.1.symm hrec1.2.symm
        rw [hr1, hr, hv]
      | start => simp [hpj, Pc.isReturned] at h2
      | missed => simp [hpj, Pc.isReturned] at h2
      | leading c1 => simp [hpj, Pc.isReturned] at h2
      | computed c1 v x => simp [hpj, Pc.isReturned] at h2
      | stored c1 v x => simp [hpj, Pc.isReturned] at h2
      | removed c1 v x => simp [hpj, Pc.isReturned] at h2
      | waiting c1 => simp [hpj, Pc.isReturned] at h2
  | start => simp [hpc, Pc.isReturned] at hLd
  | missed => simp [hpc, Pc.isReturned] at hLd
  | leading c1 => simp [hpc, Pc.isReturned] at hLd
  | computed c1 v x => simp [hpc, Pc.isReturned] at hLd
  | stored c1 v x => simp [hpc, Pc.isReturned] at hLd
  | removed c1 v x => simp [hpc, Pc.isReturned] at hLd
  | waiting c1 => simp [hpc, Pc.isReturned] at hLd

/-- C5, by design two callers of `Get(k)` that do not overlap each invoke the
loader when it fails: on a cold group with no router and a failing loader,
in the interleaving in which caller 0 runs its whole call before caller 1
starts, both callers return and the loader has been invoked twice. -/
theorem C5_serial_callers_invoke_twice :
    (∀ i, (serialFailingRun.pcs i).isReturned = true) ∧
    (coldGroup (failGetter "no such key") none).picker.isNone = true ∧
    loaderCalls serialFailingRun.env.calls = loaderCalls env0.calls + 2 := by
  decide

/-- C5, as amended: `n ≥ 1` callers of `Get(k)` on a group with no router
and no load for `k` in flight, and an interleaving `pre` after which every
caller is inside the deduplicator with the record for `k` still in flight
(all the calls overlap one load). The calls can all be completed, and
however they are completed by a further interleaving `post`, the loader has
been invoked exactly once and all the callers have received the same result,
value or error. -/
theorem C5_overlapping_callers_share_one_load {W S : Type} {n : Nat} (C : cache S)
    (k : String) (g : Group W S) (env : Env W) (pre : List (Fin n))
    (hn : 1 ≤ n) (hpk : g.picker = none) (hq : g.singleflight.m.lookup k = none)
    (hov : ∀ i, ((runSched C k (Cfg.init n g env) pre).pcs i).inFlight = true) :
    (∃ post, ∀ i,
      ((runSched C k (Cfg.init n g env) (pre ++ post)).pcs i).isReturned = true) ∧
    (∀ post,
      (∀ i, ((runSched C k (Cfg.init n g env) (pre ++ post)).pcs i).isReturned = true) →
      loaderCalls (runSched C k (Cfg.init n g env) (pre ++ post)).env.calls
        = loaderCalls env.calls + 1 ∧
      ∃ r, ∀ i, (runSched C k (Cfg.init n g env) (pre ++ post)).pcs i = Pc.returned r) := by
  have h0 : Entering k (loaderCalls env.calls) (Cfg.init n g env) :=
    ⟨hpk, Or.inl ⟨hq, rfl, fun _ => Or.inl rfl⟩⟩
  have h1 := Entering_run C k _ pre _ h0 (fun j => not_left_of_inFlight _ (hov j))
  have h2 := Overlap_of_Entering k _ _ hn h1 hov
  constructor
  · obtain ⟨post, hpost⟩ := Overlap_completes C k _ _ h2
    exact ⟨post, fun i => by rw [runSched_append]; exact hpost i⟩
  · intro post hdone
    obtain ⟨c, L, h2⟩ := h2
    have h3 := OverlapAt_run C k _ c L post _ h2
    rw [← runSched_append] at h3
    exact Overlap_done k _ _ ⟨c, L, h3⟩ hdone

theorem C5_overlapping_callers_share_one_load_witness :
    (∃ post, ∀ i,
      ((runSched listCache "Tom" (Cfg.init 3 (coldGroup countGetter none) env0)
        ([1, 0, 2, 1, 0, 2] ++ post)).pcs i).isReturned = true) ∧
    (∀ post,
      (∀ i, ((runSched listCache "Tom" (Cfg.init 3 (coldGroup countGetter none) env0)
        ([1, 0, 2, 1, 0, 2] ++ post)).pcs i).isReturned = true) →
      loaderCalls (runSched listCache "Tom" (Cfg.init 3 (coldGroup countGetter none) env0)
          ([1, 0, 2, 1, 0, 2] ++ post)).env.calls = loaderCalls env0.calls + 1 ∧
      ∃ r, ∀ i, (runSched listCache "Tom" (Cfg.init 3 (coldGroup countGetter none) env0)
          ([1, 0, 2, 1, 0, 2] ++ post)).pcs i = Pc.returned r) :=
  C5_overlapping_callers_share_one_load listCache "Tom" (coldGroup countGetter none) env0
    [1, 0, 2, 1, 0, 2] (by decide) rfl rfl (by decide)

/-- Three overlapping callers, evaluated: caller 1 leads, callers 0 and 2 wait
on its record; one loader invocation, one result for the three. -/
theorem overlapping_run_shares :
    loaderCalls overlappingRun.env.calls = 1 ∧
    ∀ i, overlappingRun.pcs i = Pc.returned (⟨[0]⟩, none) := by
  decide

/-- The late entry: on a cold group with no router and a loader that succeeds,
when caller 1 has missed the store before caller 0 runs its whole call and
enters the deduplicator after caller 0 has removed its record, the loader is
invoked twice and the two callers receive the results of different
invocations. -/
theorem late_entry_loads_again :
    (∀ i, (lateEntryRun.pcs i).isReturned = true) ∧
    loaderCalls lateEntryRun.env.calls = loaderCalls env0.calls + 2 ∧
    lateEntryRun.pcs 0 = Pc.returned (⟨[0]⟩, none) ∧
    lateEntryRun.pcs 1 = Pc.returned (⟨[1]⟩, none) := by
  decide

/-- A loader that fails once and then succeeds: the first `Get` returns its
error and caches nothing, the second `Get` invokes it again and returns the
value. -/
theorem failed_get_is_retried :
    (Group.Get listCache (coldGroup (flakyGetter [5]) none) "Tom" env0).map (fun r => r.1)
      = some (⟨[]⟩, some ⟨"data source down"⟩) ∧
    ((Group.Get listCache (coldGroup (flakyGetter [5]) none) "Tom" env0).bind
        (fun r => Group.Get listCache r.2.1 "Tom" r.2.2)).map
        (fun r => (r.1, loaderCalls r.2.2.calls))
      = some ((⟨[5]⟩, none), 2) := by
  decide

end v4
